import Mathlib

/-!
# Verification of the pycdo help-text parsing pipeline

A shallow embedding of the core of `src/pycdo/cdo.py` and `src/pycdo/utils.py`.

Texts are modelled at the granularity Python itself uses: a "block" is the
list of its lines (`str.splitlines`), each line a `String` containing no
newline character.  Python regular expressions over a single line are
translated into deterministic character scans; every translation is
documented at the definition it concerns.  Characters are ASCII (the cdo
help text is ASCII), so Python's `\s`, `\d`, `\w` are modelled by the
corresponding ASCII classes.  Fallible code (`int(...)` conversion,
`parts[0]` indexing) is modelled with `Except String`.
-/

namespace PyCdo

/-- ASCII whitespace, the ASCII part of Python's `\s` and of `str.strip()`. -/
def isWs (c : Char) : Bool :=
  c == ' ' || c == '\t' || c == '\n' || c == '\r' || c == '\x0b' || c == '\x0c'

/-- ASCII decimal digit, Python `\d` (ASCII). -/
def isDigitCh (c : Char) : Bool := '0' ≤ c && c ≤ '9'

/-- Python `[a-zA-Z0-9_]`. -/
def isWordCh (c : Char) : Bool :=
  ('a' ≤ c && c ≤ 'z') || ('A' ≤ c && c ≤ 'Z') || isDigitCh c || c == '_'

/-- Python `[A-Z]`. -/
def isUpperCh (c : Char) : Bool := 'A' ≤ c && c ≤ 'Z'

/-- The character class of `SYNOPSIS_LINE_RE`: `[a-zA-Z0-9_<>,\[\]]`. -/
def isSynCh (c : Char) : Bool :=
  isWordCh c || c == '<' || c == '>' || c == ',' || c == '[' || c == ']'

/-- The character class `[-\d]` of `LINE_RE`'s arity fields. -/
def isIntCh (c : Char) : Bool := c == '-' || isDigitCh c

/-- Drop leading whitespace (Python `lstrip`, and the effect of a leading `\s*`). -/
def dropLeadWs (l : List Char) : List Char := l.dropWhile isWs

/-- Drop trailing whitespace (Python `rstrip`, and the effect of a trailing `\s*$`). -/
def rstripChars (l : List Char) : List Char := (l.reverse.dropWhile isWs).reverse

/-- Python `str.strip()`. -/
def stripChars (l : List Char) : List Char := rstripChars (dropLeadWs l)

/-- `rstrip` on a `String`. -/
def rstripS (s : String) : String := String.mk (rstripChars s.data)

/-- Scanner for Python `s.split(',')`: `acc` is the reversed pending piece. -/
def splitCommaAux : List Char → List Char → List (List Char)
  | [], acc => [acc.reverse]
  | c :: rest, acc =>
    if c = ',' then acc.reverse :: splitCommaAux rest []
    else splitCommaAux rest (c :: acc)

/-- Python `s.split(',')` (keeps empty pieces, `"".split(',') == ['']`). -/
def splitOnComma (l : List Char) : List (List Char) := splitCommaAux l []

/-- Scanner for Python `s.split()` (no argument): `acc` is the reversed
pending token. -/
def wsSplitAux : List Char → List Char → List (List Char)
  | [], acc => if acc.isEmpty then [] else [acc.reverse]
  | c :: rest, acc =>
    if isWs c then
      if acc.isEmpty then wsSplitAux rest [] else acc.reverse :: wsSplitAux rest []
    else wsSplitAux rest (c :: acc)

/-- Python `s.split()` with no argument: split on whitespace runs, no empty tokens. -/
def wsSplit (l : List Char) : List (List Char) := wsSplitAux l []

/-- Is `pat` a substring of `s` (Python `pat in s`)? -/
def isSubstr (pat : List Char) : List Char → Bool
  | [] => pat.isEmpty
  | c :: rest => pat.isPrefixOf (c :: rest) || isSubstr pat rest

/-! ## Data model: CallSpec (the dict built by `_parse_synopsis_block`) -/

/-- The spec dict produced per synopsis line by `_parse_synopsis_block`
(`op`, `required_params`, `optional_params`, `in_tokens`, `out_tokens`,
`is_template`).  The spec's `inputTokenCount` / `outputTokenCount` are the
lengths of the two token lists. -/
structure CallSpec where
  op : String
  required_params : List String
  optional_params : List String
  in_tokens : List String
  out_tokens : List String
  is_template : Bool
deriving DecidableEq, Repr

/-! ## Synopsis parser (`_parse_synopsis_block`, cdo.py lines 64-99) -/

/-- Scanner for the simultaneous `re.findall(r'\[([^\]]+)\]', s)` and
`re.sub(r'\[[^\]]+\]', '', s)` pass over the left half of a synopsis line.
The state is `none` outside a candidate group and `some pend` (the reversed
content read so far) after an opening `'['`.  The pattern `\[[^\]]+\]`
matches at a `'['` exactly when a `']'` follows with at least one character
strictly between (`[^\]]` accepts everything else, including a nested `'['`);
on a match the scan resumes after the `']'` (matches are non-overlapping),
on a failure the engine advances, leaving the `'['` — and, for an immediate
`']'`, that `']'` too — in the residue; an unclosed `'['` leaves everything
in the residue, and no group can start in that tail since it holds no
further `']'`. -/
def bracketAux : List Char → Option (List Char) → List (List Char) × List Char
  | [], none => ([], [])
  | [], some pend => ([], '[' :: pend.reverse)
  | c :: rest, none =>
    if c = '[' then bracketAux rest (some [])
    else ((bracketAux rest none).1, c :: (bracketAux rest none).2)
  | c :: rest, some pend =>
    if c = ']' then
      if pend.isEmpty then
        ((bracketAux rest none).1, '[' :: ']' :: (bracketAux rest none).2)
      else (pend.reverse :: (bracketAux rest none).1, (bracketAux rest none).2)
    else bracketAux rest (some (c :: pend))

/-- The bracket-group contents of a left half, in left-to-right order,
together with the left half with the groups removed. -/
def bracketScan (l : List Char) : List (List Char) × List Char := bracketAux l none

/-- The placeholder literal `'<operator>'`. -/
def operatorPlaceholder : List Char := '<' :: 'o' :: 'p' :: 'e' :: 'r' :: 'a' :: 't' :: 'o' :: 'r' :: '>' :: []

/-- `_parse_synopsis_block` on one line.  `Except.ok none` means the line is
skipped; `Except.error` models the uncaught `IndexError` of `parts[0]` when
the comma-token list is empty.

Correspondence with the source: the line is `rstrip`ped, then skipped when
empty or starting with `'#'`.  `SYNOPSIS_LINE_RE` is
`^\s*([a-zA-Z0-9_<>,\[\]]+)\s+(.+)$` with `.match`: after optional leading
whitespace the first group greedily takes the maximal run of class
characters (the class contains no whitespace, so the run is forced), then
`\s+` requires at least one whitespace character, and `(.+)` takes the
(nonempty) remainder after the maximal whitespace run (`\s+` is greedy and
never needs to give characters back because `.+` matches anything on a
newline-free line). -/
def parseSynopsisLine (raw : List Char) : Except String (Option CallSpec) :=
  let line := rstripChars raw
  if line.isEmpty then Except.ok none
  else if line.head? = some '#' then Except.ok none
  else
    let l1 := dropLeadWs line
    let left := l1.takeWhile isSynCh
    let rest0 := l1.dropWhile isSynCh
    if left.isEmpty then Except.ok none
    else if (rest0.takeWhile isWs).isEmpty then Except.ok none
    else
      let rest := rest0.dropWhile isWs
      if rest.isEmpty then Except.ok none
      else
        let scanned := bracketAux left none
        let optional_params :=
          ((scanned.1.map splitOnComma).flatten.map stripChars).filter (fun i => !i.isEmpty)
        let parts := (splitOnComma scanned.2).filter (fun p => !p.isEmpty)
        match parts with
        | [] => Except.error "IndexError: list index out of range"
        | opName :: required =>
          let ios := wsSplit rest
          let inToks := if 2 ≤ ios.length then ios.take (ios.length - 1) else ios
          let outToks := if 2 ≤ ios.length then ios.drop (ios.length - 1) else []
          Except.ok (some
            { op := String.mk opName
              required_params := required.map String.mk
              optional_params := optional_params.map String.mk
              in_tokens := inToks.map String.mk
              out_tokens := outToks.map String.mk
              is_template := isSubstr operatorPlaceholder opName })

/-- `_parse_synopsis_block` over the lines of the SYNOPSIS section body.
An exception raised on any line aborts the whole block (it propagates out of
the Python loop). -/
def parseSynopsisBlock : List String → Except String (List CallSpec)
  | [] => Except.ok []
  | l :: ls =>
    match parseSynopsisLine l.data with
    | Except.error e => Except.error e
    | Except.ok none => parseSynopsisBlock ls
    | Except.ok (some s) =>
      match parseSynopsisBlock ls with
      | Except.error e => Except.error e
      | Except.ok specs => Except.ok (s :: specs)

/-! ## Template expansion (`_expand_template_specs`, cdo.py lines 101-112) -/

/-- `_expand_template_specs`: a template spec is replaced by one copy per
candidate operator name (all fields except `op` copied, `is_template`
cleared); a non-template spec passes through unchanged. -/
def expandTemplateSpecs : List CallSpec → List String → List CallSpec
  | [], _ => []
  | s :: rest, names =>
    (if s.is_template then
       names.map (fun n => { s with op := n, is_template := false })
     else [s]) ++ expandTemplateSpecs rest names

/-! ## Help-text section splitter (`_split_sections`, cdo.py lines 25-32)

`HELP_HEADERS_RE` is `^(NAME|SYNOPSIS|DESCRIPTION|OPERATORS|PARAMETER|ENVIRONMENT)\s*$`
with `re.MULTILINE`, applied with `finditer` to the raw help text; each match's
section body is `help_text[m.end() : next.start()].strip('\n')`.

Line-level correspondence (texts are modelled as their `splitlines` list):
a match starts exactly at the start of a line consisting of one of the six
tokens followed by whitespace only.  Because `\s` also matches newlines, the
greedy `\s*` ending at a `$` swallows the whole run of whitespace-only lines
following the header up to (but excluding) the last newline of the run, so
`m.end()` sits just before the first line of the body that contains a
non-whitespace character; `strip('\n')` then removes the newline in front of
it and removes the trailing newlines of the span, i.e. the trailing *empty*
lines (a trailing line of spaces survives, only its newline is removed).
Hence: the body is the span of lines up to the next header line, with the
leading whitespace-only lines and the trailing empty lines removed. -/

/-- The six recognized header tokens, in the regex's alternation order. -/
def helpHeaders : List String := ["NAME", "SYNOPSIS", "DESCRIPTION", "OPERATORS", "PARAMETER", "ENVIRONMENT"]

/-- Does `HELP_HEADERS_RE` match at the start of this line with token `h`,
i.e. is the line `h` followed by whitespace only? -/
def headerMatch (h : String) (line : String) : Bool :=
  h.data.isPrefixOf line.data && (line.data.drop h.data.length).all isWs

/-- The header token matched on this line, if any. -/
def findHeader (line : String) : Option String :=
  helpHeaders.find? (fun h => headerMatch h line)

/-- A line that is whitespace only (possibly empty). -/
def isWsOnlyLine (line : String) : Bool := line.data.all isWs

/-- The trimming `strip('\n')` performs on a section span, combined with the
whitespace-only lines already swallowed by the header match's `\s*$` (see
the section comment above): leading whitespace-only lines and trailing empty
lines are removed. -/
def trimBody (ls : List String) : List String :=
  ((ls.dropWhile isWsOnlyLine).reverse.dropWhile (fun l => l.isEmpty)).reverse

/-- Close the currently open span, trimming its body. -/
def emitSec : Option (String × List String) → List (String × List String)
  | none => []
  | some (h, acc) => [(h, trimBody acc.reverse)]

/-- The successive `(header, body)` spans of `finditer`: each header line
opens a span reaching to the next header line (or the end of the text).
The state is the currently open span (header, reversed body lines). -/
def sectionsAux : List String → Option (String × List String) → List (String × List String)
  | [], cur => emitSec cur
  | l :: rest, cur =>
    match findHeader l with
    | some h2 => emitSec cur ++ sectionsAux rest (some (h2, []))
    | none =>
      match cur with
      | none => sectionsAux rest none
      | some (h, acc) => sectionsAux rest (some (h, l :: acc))

/-- `_split_sections`: the spans in text order; the Python `dict` assignment
`sections[m.group(1)] = ...` is modelled by reading this association list
with the last-occurrence-wins lookup `sget`. -/
def splitSections (lines : List String) : List (String × List String) :=
  sectionsAux lines none

/-- Lookup in an association list built by repeated Python `dict` assignment:
the value of the *last* entry carrying the key. -/
def sget {α : Type} : List (String × α) → String → Option α
  | [], _ => none
  | (k', v) :: rest, k =>
    match sget rest k with
    | some v' => some v'
    | none => if k' = k then some v else none

/-- `sections.get(k, dflt)`. -/
def sgetD {α : Type} (d : List (String × α)) (k : String) (dflt : α) : α :=
  (sget d k).getD dflt

/-! ## Parameter-block parser (`_parse_parameters_block`, cdo.py lines 34-43) -/

/-- `TYPE_MAP.get(raw_type.upper(), 'str')`.  The matched token is `[A-Z]+`,
so `.upper()` is the identity on it and is elided. -/
def typeLookup (t : String) : String :=
  if t = "STRING" then "str"
  else if t = "BOOL" then "bool"
  else if t = "BOOLEAN" then "bool"
  else if t = "INT" then "int"
  else if t = "INTEGER" then "int"
  else if t = "FLOAT" then "float"
  else if t = "DOUBLE" then "float"
  else if t = "NUM" then "float"
  else "str"

/-- `PARAM_LINE_RE.match(line)` where `PARAM_LINE_RE` is
`^\s*([a-zA-Z0-9_]+)\s+([A-Z]+)\s+(.*\S)\s*$`: after optional leading
whitespace, the name is the maximal word-character run, then at least one
whitespace, then the maximal `[A-Z]` run (if the character following it is
not whitespace the match fails: shrinking either greedy run only exposes a
non-whitespace character to `\s+`), then at least one whitespace, and the
description group `(.*\S)` reaches to the last non-whitespace character of
the line and must be nonempty.  Returns `(name, type token, description)`;
the source then applies `desc.strip()`, the identity here since the group
starts and ends with non-whitespace. -/
def matchParamLine (line : String) : Option (String × String × String) :=
  let l1 := dropLeadWs line.data
  let name := l1.takeWhile isWordCh
  if name.isEmpty then none
  else
    let r1 := l1.dropWhile isWordCh
    if (r1.takeWhile isWs).isEmpty then none
    else
      let r2 := r1.dropWhile isWs
      let typ := r2.takeWhile isUpperCh
      if typ.isEmpty then none
      else
        let r3 := r2.dropWhile isUpperCh
        if (r3.takeWhile isWs).isEmpty then none
        else
          let r4 := r3.dropWhile isWs
          if r4.isEmpty then none
          else some (String.mk name, String.mk typ, String.mk (rstripChars r4))

/-- `_parse_parameters_block`: one entry per matching line, keyed by name;
the Python `dict` is modelled as the entry list in line order, read with the
last-wins lookup `sget`.  Each entry's value is `(python type, description)`
flattened into the triple `(name, type, description)`. -/
def parseParamBlock : List String → List (String × String × String)
  | [] => []
  | l :: ls =>
    match matchParamLine l with
    | none => parseParamBlock ls
    | some (n, t, d) => (n, typeLookup t, d) :: parseParamBlock ls

/-! ## Operator-doc parser (`_parse_operators_section`, cdo.py lines 45-62) -/

/-- A per-operator entry of the inner OPERATORS section. -/
structure OpDoc where
  name : String
  short : String
  long_lines : List String
deriving DecidableEq, Repr

/-- `OPER_LINE_RE.match(line)` where `OPER_LINE_RE` is
`^\s*([a-z0-9_]+)\s{2,}(.+)$` with `re.IGNORECASE`: after optional leading
whitespace, the name is the maximal word-character run, followed by a
whitespace run and a remainder.  When the remainder is nonempty the run must
have length at least 2 and the match group is the remainder; when the line
ends in the whitespace run, `\s{2,}` backtracks one character so the run
must have length at least 3 and the group is a single whitespace character.
The source stores `short.strip()`, applied here directly. -/
def matchOperLine (line : String) : Option (String × String) :=
  let l1 := dropLeadWs line.data
  let name := l1.takeWhile isWordCh
  if name.isEmpty then none
  else
    let r := l1.dropWhile isWordCh
    let w := r.takeWhile isWs
    let t := r.dropWhile isWs
    if t.isEmpty then
      if 3 ≤ w.length then some (String.mk name, "") else none
    else
      if 2 ≤ w.length then some (String.mk name, String.mk (stripChars t)) else none

/-- `not line.strip()`. -/
def isBlankLine (line : String) : Bool := (stripChars line.data).isEmpty

/-- The continuation-line transform `re.sub(r'^\s{0,8}', '', line.rstrip())`:
trailing whitespace removed, then up to 8 leading whitespace characters. -/
def contLine (line : String) : String :=
  let r := rstripChars line.data
  String.mk (r.drop (min 8 (r.takeWhile isWs).length))

/-- Commit the open entry, if any (entries are keyed by their name). -/
def emitOpt : Option OpDoc → List (String × OpDoc)
  | none => []
  | some d => [(d.name, d)]

/-- The loop of `_parse_operators_section` with its `current` entry.  The
source stores `current` in the result dict as soon as its header line is
seen and then mutates it in place; committing the finished entry when the
next header line (or the end) is reached yields the same final table. -/
def opDocsGo : List String → Option OpDoc → List (String × OpDoc)
  | [], cur => emitOpt cur
  | l :: rest, cur =>
    if isBlankLine l then
      opDocsGo rest (cur.map fun d => { d with long_lines := d.long_lines ++ [""] })
    else
      match matchOperLine l with
      | some (n, s) => emitOpt cur ++ opDocsGo rest (some ⟨n, s, []⟩)
      | none =>
        opDocsGo rest (cur.map fun d => { d with long_lines := d.long_lines ++ [contLine l] })

/-- `_parse_operators_section`: entries in header order, keyed by name, read
with the last-wins lookup `sget`. -/
def parseOperatorsSection (lines : List String) : List (String × OpDoc) :=
  opDocsGo lines none

/-! ## The template pipeline of `_attach_dynamic_methods` (cdo.py lines 203-217) -/

/-- `list(op_docs.keys())`: Python `dict` keys in first-insertion order. -/
def dedupKeysAux : List String → List String → List String
  | [], _ => []
  | k :: rest, seen =>
    if seen.contains k then dedupKeysAux rest seen
    else k :: dedupKeysAux rest (k :: seen)

/-- Keys of an entry list in first-occurrence order. -/
def dedupKeys (l : List String) : List String := dedupKeysAux l []

/-- The NAME-section fallback of `_attach_dynamic_methods`: the first NAME
line containing both a comma and a hyphen, its part before the first hyphen
split on commas, the pieces stripped, empty pieces dropped. -/
def nameFallback (lines : List String) : List String :=
  match lines.find? (fun ln => ln.data.contains ',' && ln.data.contains '-') with
  | none => []
  | some ln =>
    (((splitOnComma (ln.data.takeWhile (fun c => c ≠ '-'))).map stripChars).filterMap
      (fun p => if p.isEmpty then none else some (String.mk p)))

/-- The ConcreteCallSpecs a help page yields: sections are split, the
SYNOPSIS block parsed, and, when any spec is a template, the candidate names
(OPERATORS-table keys, falling back to the NAME line) drive the expansion.
This is the spec-producing part of `_attach_dynamic_methods`. -/
def pageSpecs (lines : List String) : Except String (List CallSpec) :=
  let sections := splitSections lines
  match parseSynopsisBlock (sgetD sections "SYNOPSIS" []) with
  | Except.error e => Except.error e
  | Except.ok specs =>
    if specs.any (fun s => s.is_template) then
      let op_docs := parseOperatorsSection (sgetD sections "OPERATORS" [])
      let names0 := dedupKeys (op_docs.map (fun e => e.1))
      let names := if names0.isEmpty then nameFallback (sgetD sections "NAME" []) else names0
      Except.ok (expandTemplateSpecs specs names)
    else Except.ok specs

/-! ## Attachment (`_attach_dynamic_methods`, cdo.py lines 218-223)

The target class's attribute table is modelled as an association list with
unique-by-construction appends; `hasattr` is membership, `setattr` appends,
and the synthesized callable is abstracted by `synth`. -/

/-- `hasattr(cls, n)`. -/
def hasName {β : Type} (ns : List (String × β)) (n : String) : Bool :=
  ns.any (fun e => e.1 == n)

/-- Attribute lookup. -/
def nsLookup {β : Type} (ns : List (String × β)) (n : String) : Option β :=
  (ns.find? (fun e => e.1 == n)).map (fun e => e.2)

/-- Number of attribute entries carrying the name. -/
def countName {β : Type} (ns : List (String × β)) (n : String) : Nat :=
  (ns.filter (fun e => e.1 == n)).length

/-- The attachment loop: for each spec in order, skip if the class already
has a member of that name, otherwise synthesize and `setattr`. -/
def attachSpecs {β : Type} (synth : CallSpec → β) :
    List CallSpec → List (String × β) → List (String × β)
  | [], ns => ns
  | s :: rest, ns =>
    attachSpecs synth rest (if hasName ns s.op then ns else ns ++ [(s.op, synth s)])

/-! ## Process invoker (`execute` / `run`, utils.py lines 13-44)

`subprocess.run` is the external collaborator; it is abstracted as an oracle
mapping the command line to `(returncode, stdout, stderr)`, with the byte
streams already decoded. -/

/-- The result of the child process. -/
structure ProcOutput where
  returncode : Int
  stdout : String
  stderr : String

/-- `execute(command)` at its default `return_type="stdout"` (the only mode
the package uses): raise with the captured stderr text on a non-zero exit,
otherwise return the captured stdout text. -/
def execute (sub : List String → ProcOutput) (command : List String) : Except String String :=
  let output := sub command
  if output.returncode ≠ 0 then Except.error output.stderr
  else Except.ok output.stdout

/-- An argument of `run` that may be absent, a single string, or a list. -/
inductive StrArg where
  | noneArg : StrArg
  | str : String → StrArg
  | list : List String → StrArg

/-- The normalization `run` applies to each argument. -/
def StrArg.norm : StrArg → List String
  | StrArg.noneArg => []
  | StrArg.str s => [s]
  | StrArg.list l => l

/-- `run(operator, inputs, output, options)`: assemble
`["cdo"] + options + operator + inputs + output` and execute it. -/
def run (sub : List String → ProcOutput) (operator inputs output options : StrArg) :
    Except String String :=
  execute sub (["cdo"] ++ options.norm ++ operator.norm ++ inputs.norm ++ output.norm)

/-! ## Operator listing parser (`parse_cdo_operator_listing`, utils.py lines 47-76) -/

/-- A row of the operator table (one listing line). -/
structure OperatorRow where
  name : String
  description : Option String
  inputs : Int
  outputs : Int
  is_alias : Bool
  alias_to : Option String
deriving DecidableEq, Repr

/-- Final stage of the reverse scan: `p` is the part of the line before the
`(`.  `^(\S+)` pins the name to its maximal non-space prefix (so `p` must
start non-space); the lazy description group covers what remains with the
adjacent whitespace runs absorbed by the greedy `\s+` and `\s*`, i.e. the
part after the name with surrounding whitespace removed.  The regex leaves
the description group `None` when there is no whitespace after the name and
`''` when there is; the source collapses both to `''` via
`(desc or '').rstrip()`, so both are modelled as the empty list. -/
def lineGroupsName (p r1 r2 : List Char) :
    Option (List Char × List Char × List Char × List Char) :=
  match p.head? with
  | none => none
  | some c =>
    if isWs c then none
    else
      some (p.takeWhile (fun x => !isWs x),
        rstripChars (dropLeadWs (p.dropWhile (fun x => !isWs x))),
        r1.reverse, r2.reverse)

/-- Stage of the reverse scan after the `|`: read the `[-\d]+` run of the
IN field, then require the opening `(`; what precedes it (re-reversed) is
the name-and-description part. -/
def lineGroupsIn (t2 r2 : List Char) :
    Option (List Char × List Char × List Char × List Char) :=
  let r1 := t2.takeWhile isIntCh
  let rest := t2.dropWhile isIntCh
  if r1.isEmpty then none
  else if rest.head? = some '(' then lineGroupsName rest.tail.reverse r1 r2
  else none

/-- Stage of the reverse scan after the final `)`: read the `[-\d]+` run of
the OUT field, then require the `|` separator. -/
def lineGroupsOut (t : List Char) :
    Option (List Char × List Char × List Char × List Char) :=
  let r2 := t.takeWhile isIntCh
  let rest := t.dropWhile isIntCh
  if r2.isEmpty then none
  else if rest.head? = some '|' then lineGroupsIn rest.tail r2
  else none

/-- The reverse scan: the last character must be the closing `)`. -/
def lineGroupsRev (rev : List Char) :
    Option (List Char × List Char × List Char × List Char) :=
  if rev.head? = some ')' then lineGroupsOut rev.tail else none

/-- `LINE_RE.match(line)` on an `rstrip`ped line, where `LINE_RE` is
`^(\S+)(?:\s+(.*?))?\s*\(([-\d]+)\|([-\d]+)\)\s*$`.

Since the line has no trailing whitespace, `\s*$` is empty, so the closing
`)` must be the last character.  The `[-\d]` runs and the delimiting `|` and
`(` are then forced from the right end (the character classes exclude the
delimiters), after which `^(\S+)` and the lazy description group decompose
the part before the `(` (see `lineGroupsName`).  The decomposition is
performed as a scan of the reversed line. -/
def lineGroups (line : List Char) : Option (List Char × List Char × List Char × List Char) :=
  lineGroupsRev line.reverse

/-- The value of a base-10 digit string. -/
def digitsVal (ds : List Char) : Nat :=
  ds.foldl (fun a c => 10 * a + (c.toNat - 48)) 0

/-- `int(s)` on a string drawn from the class `[-\d]+`: an optional single
leading minus sign followed by at least one digit; anything else raises
`ValueError`. -/
def pyInt (s : List Char) : Except String Int :=
  match s with
  | [] => Except.error "ValueError: invalid literal for int"
  | c :: ds =>
    if c = '-' then
      if !ds.isEmpty && ds.all isDigitCh then Except.ok (-((digitsVal ds : Nat) : Int))
      else Except.error "ValueError: invalid literal for int"
    else
      if (c :: ds).all isDigitCh then Except.ok ((digitsVal (c :: ds) : Nat) : Int)
      else Except.error "ValueError: invalid literal for int"

/-- `ALIAS_RE.search(desc)` where `ALIAS_RE` is `-->\s*(\S+)`: the leftmost
position at which `-->` is followed (after optional whitespace) by at least
one non-whitespace character; the group is the maximal non-whitespace run
there.  When the group fails, the characters after that `-->` are whitespace
only, so no later position can match either (the remaining text holds no
further `'-'`) and the whole search fails. -/
def aliasFind : List Char → Option (List Char)
  | [] => none
  | c :: rest =>
    if (c :: rest).take 3 = ['-', '-', '>'] then
      let tgt := (dropLeadWs ((c :: rest).drop 3)).takeWhile (fun x => !isWs x)
      if tgt.isEmpty then none else some tgt
    else aliasFind rest

/-- One iteration of the loop of `parse_cdo_operator_listing`:
`Except.ok none` for a skipped line (empty after `rstrip`, or no regex
match), `Except.error` for the uncaught `ValueError` of `int(...)`. -/
def parseListingLine (raw : String) : Except String (Option OperatorRow) :=
  let line := rstripChars raw.data
  if line.isEmpty then Except.ok none
  else
    match lineGroups line with
    | none => Except.ok none
    | some (name, desc, r1, r2) =>
      match pyInt r1 with
      | Except.error e => Except.error e
      | Except.ok nIn =>
        match pyInt r2 with
        | Except.error e => Except.error e
        | Except.ok nOut =>
          let al := aliasFind desc
          Except.ok (some
            { name := String.mk name
              description := if desc.isEmpty then none else some (String.mk desc)
              inputs := nIn
              outputs := nOut
              is_alias := al.isSome
              alias_to := al.map String.mk })

/-- The row list in line order (before the final sort). -/
def listingRows : List String → Except String (List OperatorRow)
  | [] => Except.ok []
  | l :: ls =>
    match parseListingLine l with
    | Except.error e => Except.error e
    | Except.ok none => listingRows ls
    | Except.ok (some r) =>
      match listingRows ls with
      | Except.error e => Except.error e
      | Except.ok rs => Except.ok (r :: rs)

/-- Insertion step of the by-name sort. -/
def insertByName (r : OperatorRow) : List OperatorRow → List OperatorRow
  | [] => [r]
  | x :: xs => if x.name ≤ r.name then x :: insertByName r xs else r :: x :: xs

/-- `df.sort_values("name")` (relative order of equal names immaterial to
the claims). -/
def sortByName : List OperatorRow → List OperatorRow
  | [] => []
  | r :: rs => insertByName r (sortByName rs)

/-- `parse_cdo_operator_listing` on the `splitlines` of the listing text. -/
def parse_cdo_operator_listing (lines : List String) : Except String (List OperatorRow) :=
  match listingRows lines with
  | Except.error e => Except.error e
  | Except.ok rows => Except.ok (sortByName rows)

/-! ## Constructors for well-formed inputs

The universally quantified theorems below are stated over structured data
from which a concrete input line is rendered; these renderers build the
lines.  They belong to the statements, not to the embedded program. -/

/-- Join character lists with a comma. -/
def joinComma : List (List Char) → List Char
  | [] => []
  | [x] => x
  | x :: xs => x ++ ',' :: joinComma xs

/-- Join character lists with a single space. -/
def joinSpace : List (List Char) → List Char
  | [] => []
  | [x] => x
  | x :: xs => x ++ ' ' :: joinSpace xs

/-- A segment of a synopsis left half: a plain comma-separated token, or a
bracketed optional-parameter group `[a,b,...]`. -/
inductive SynSeg where
  | tok : String → SynSeg
  | grp : List String → SynSeg

/-- Render one segment. -/
def segChars : SynSeg → List Char
  | SynSeg.tok t => t.data
  | SynSeg.grp g => '[' :: (joinComma (g.map String.data) ++ [']'])

/-- Render a left half: segments joined with commas. -/
def leftChars (segs : List SynSeg) : List Char := joinComma (segs.map segChars)

/-- Render a synopsis line: the left half, one space, the whitespace-joined
I/O tokens. -/
def mkSynLine (segs : List SynSeg) (ios : List String) : String :=
  String.mk (leftChars segs ++ ' ' :: joinSpace (ios.map String.data))

/-- The plain tokens of a segment list, in order. -/
def segToks (segs : List SynSeg) : List String :=
  segs.filterMap (fun s => match s with | SynSeg.tok t => some t | _ => none)

/-- The bracket groups of a segment list, in order. -/
def segGrps (segs : List SynSeg) : List (List String) :=
  segs.filterMap (fun s => match s with | SynSeg.grp g => some g | _ => none)

/-- A character allowed in a synopsis token: in the left-half class, and not
a comma or bracket (those are the structure of the left half). -/
def isSynTokCh (c : Char) : Bool := isWordCh c || c == '<' || c == '>'

/-- A well-formed synopsis token. -/
def wfSynTok (t : String) : Prop := t ≠ "" ∧ ∀ c ∈ t.data, isSynTokCh c = true

/-- A well-formed segment: a well-formed token, or a nonempty group of
well-formed tokens. -/
def wfSeg : SynSeg → Prop
  | SynSeg.tok t => wfSynTok t
  | SynSeg.grp g => g ≠ [] ∧ ∀ i ∈ g, wfSynTok i

/-- A well-formed I/O token: nonempty and whitespace-free. -/
def wfIoTok (t : String) : Prop := t ≠ "" ∧ ∀ c ∈ t.data, isWs c = false

/-- What a segment leaves in the left half after bracket-group removal. -/
def segRem : SynSeg → List Char
  | SynSeg.tok t => t.data
  | SynSeg.grp _ => []

instance wfSynTokDecidable (t : String) : Decidable (wfSynTok t) := by
  unfold wfSynTok
  infer_instance

instance wfSegDecidable (s : SynSeg) : Decidable (wfSeg s) := by
  cases s with
  | tok t =>
    unfold wfSeg
    infer_instance
  | grp g =>
    unfold wfSeg
    infer_instance

instance wfIoTokDecidable (t : String) : Decidable (wfIoTok t) := by
  unfold wfIoTok
  infer_instance

/-- Decimal digit character. -/
def digitCh (n : Nat) : Char := Char.ofNat (48 + n)

/-- Digit-string builder with explicit fuel (so that it evaluates by
kernel reduction); `fuel ≥ n` is always enough. -/
def natDigitsF : Nat → Nat → List Char
  | 0, n => [digitCh n]
  | fuel + 1, n =>
    if n < 10 then [digitCh n] else natDigitsF fuel (n / 10) ++ [digitCh (n % 10)]

/-- The canonical decimal digit string of a natural number. -/
def natDigits (n : Nat) : List Char := natDigitsF n n

/-- The canonical decimal rendering of an integer (`-` sign for negatives). -/
def intRender (n : Int) : List Char :=
  if n < 0 then '-' :: natDigits (-n).toNat else natDigits n.toNat

/-- Render a well-formed listing line `NAME [DESC] (IN|OUT)`. -/
def mkListingLine (name : String) (desc : Option String) (nIn nOut : Int) : String :=
  String.mk (name.data
    ++ (match desc with | none => [] | some d => ' ' :: d.data)
    ++ ' ' :: '(' :: (intRender nIn ++ '|' :: (intRender nOut ++ [')'])))

/-- The lines of one OPERATORS-section chunk `(name, short, continuation
lines)`: the header line `name␣␣short` followed by its continuation lines. -/
def operChunkLines (c : String × String × List String) : List String :=
  String.mk (c.1.data ++ ' ' :: ' ' :: c.2.1.data) :: c.2.2

/-- The table entry such a chunk produces. -/
def operChunkEntry (c : String × String × List String) : String × OpDoc :=
  (c.1, { name := c.1, short := c.2.1, long_lines := c.2.2.map contLine })

/-- A well-formed operator name for a listing line: nonempty, no whitespace. -/
def wfListName (t : String) : Prop := t ≠ "" ∧ ∀ c ∈ t.data, isWs c = false

/-- A well-formed listing description: nonempty with non-whitespace first
and last characters (interior whitespace is fine). -/
def wfListDesc (d : String) : Prop :=
  d ≠ "" ∧ dropLeadWs d.data = d.data ∧ rstripChars d.data = d.data

instance wfListNameDecidable (t : String) : Decidable (wfListName t) := by
  unfold wfListName
  infer_instance

instance wfListDescDecidable (d : String) : Decidable (wfListDesc d) := by
  unfold wfListDesc
  infer_instance

/-- Render a description carrying an alias marker: `pre` followed by
`--> ` and the target token. -/
def mkAliasDesc (pre X : String) : String :=
  String.mk (pre.data ++ '-' :: '-' :: '>' :: ' ' :: X.data)

/-! ## General list and character lemmas -/

theorem dropWhile_length_le {α : Type} (p : α → Bool) (l : List α) :
    (l.dropWhile p).length ≤ l.length := by
  induction l with
  | nil => simp [List.dropWhile]
  | cons a t ih =>
    by_cases h : p a <;> simp [List.dropWhile_cons, h] <;> omega

theorem takeWhile_cons_neg {α : Type} (p : α → Bool) (a : α) (l : List α) (h : p a = false) :
    (a :: l).takeWhile p = [] := by
  simp [List.takeWhile_cons, h]

theorem dropWhile_cons_neg {α : Type} (p : α → Bool) (a : α) (l : List α) (h : p a = false) :
    (a :: l).dropWhile p = a :: l := by
  simp [List.dropWhile_cons, h]

theorem takeWhile_all_append {α : Type} (p : α → Bool) (xs ys : List α)
    (h : ∀ a ∈ xs, p a = true) :
    (xs ++ ys).takeWhile p = xs ++ ys.takeWhile p := by
  induction xs with
  | nil => simp
  | cons a t ih =>
    have ha : p a = true := h a (by simp)
    simp only [List.cons_append, List.takeWhile_cons, ha, if_true]
    rw [ih (fun x hx => h x (List.mem_cons_of_mem _ hx))]

theorem dropWhile_all_append {α : Type} (p : α → Bool) (xs ys : List α)
    (h : ∀ a ∈ xs, p a = true) :
    (xs ++ ys).dropWhile p = ys.dropWhile p := by
  induction xs with
  | nil => simp
  | cons a t ih =>
    have ha : p a = true := h a (by simp)
    simp only [List.cons_append, List.dropWhile_cons, ha, if_true]
    exact ih (fun x hx => h x (List.mem_cons_of_mem _ hx))

theorem takeWhile_all_eq_self {α : Type} (p : α → Bool) (xs : List α)
    (h : ∀ a ∈ xs, p a = true) : xs.takeWhile p = xs := by
  have := takeWhile_all_append p xs [] h
  simpa using this

theorem dropWhile_all_eq_nil {α : Type} (p : α → Bool) (xs : List α)
    (h : ∀ a ∈ xs, p a = true) : xs.dropWhile p = [] := by
  have := dropWhile_all_append p xs [] h
  simpa using this

theorem rstripChars_of_all_nonws (l : List Char) (h : ∀ c ∈ l, isWs c = false) :
    rstripChars l = l := by
  unfold rstripChars
  cases hr : l.reverse with
  | nil =>
    have hl : l = [] := by simpa using congrArg List.reverse hr
    simp [hl]
  | cons c t =>
    have hc : isWs c = false := h c (by
      have : c ∈ l.reverse := by rw [hr]; simp
      simpa using this)
    rw [dropWhile_cons_neg _ _ _ hc, ← hr, List.reverse_reverse]

theorem rstripChars_keep (xs ys : List Char) (hne : ys ≠ []) (hy : rstripChars ys = ys) :
    rstripChars (xs ++ ys) = xs ++ ys := by
  cases hr : ys.reverse with
  | nil => exact absurd (by simpa using congrArg List.reverse hr) hne
  | cons c t =>
    have hc : isWs c = false := by
      cases hw : isWs c with
      | false => rfl
      | true =>
        exfalso
        have h1 : rstripChars ys = (t.dropWhile isWs).reverse := by
          unfold rstripChars
          rw [hr, List.dropWhile_cons, hw]
          simp
        have h2 : (rstripChars ys).length < ys.length := by
          rw [h1]
          have hd := dropWhile_length_le isWs t
          have hlen : ys.length = t.length + 1 := by
            have := congrArg List.length hr
            simpa using this
          simp only [List.length_reverse]
          omega
        rw [hy] at h2
        omega
    unfold rstripChars
    rw [List.reverse_append, hr, List.cons_append, dropWhile_cons_neg _ _ _ hc]
    rw [← List.cons_append, ← hr, ← List.reverse_append, List.reverse_reverse]

theorem stripChars_of_all_nonws (l : List Char) (h : ∀ c ∈ l, isWs c = false) :
    stripChars l = l := by
  unfold stripChars dropLeadWs
  rw [List.dropWhile_eq_self_iff.mpr ?_, rstripChars_of_all_nonws l h]
  intro hl
  simpa using h _ (List.get_mem l 0 hl)

theorem splitCommaAux_no_comma (l acc : List Char) (h : ∀ c ∈ l, c ≠ ',') :
    splitCommaAux l acc = [acc.reverse ++ l] := by
  induction l generalizing acc with
  | nil => simp [splitCommaAux]
  | cons c t ih =>
    simp only [splitCommaAux]
    rw [if_neg (h c (by simp))]
    rw [ih (c :: acc) (fun x hx => h x (List.mem_cons_of_mem _ hx))]
    simp

theorem splitOnComma_no_comma (l : List Char) (h : ∀ c ∈ l, c ≠ ',') :
    splitOnComma l = [l] := by
  unfold splitOnComma
  rw [splitCommaAux_no_comma l [] h]
  simp

theorem splitCommaAux_append (xs ys acc : List Char) (h : ∀ c ∈ xs, c ≠ ',') :
    splitCommaAux (xs ++ ',' :: ys) acc = (acc.reverse ++ xs) :: splitOnComma ys := by
  induction xs generalizing acc with
  | nil => simp [splitCommaAux, splitOnComma]
  | cons c t ih =>
    simp only [List.cons_append, splitCommaAux, List.append_eq]
    rw [if_neg (h c (by simp))]
    rw [ih (c :: acc) (fun x hx => h x (List.mem_cons_of_mem _ hx))]
    simp

theorem splitOnComma_append (xs ys : List Char) (h : ∀ c ∈ xs, c ≠ ',') :
    splitOnComma (xs ++ ',' :: ys) = xs :: splitOnComma ys := by
  show splitCommaAux (xs ++ ',' :: ys) [] = _
  rw [splitCommaAux_append xs ys [] h]
  simp

theorem splitOnComma_joinComma (ps : List (List Char)) (hne : ps ≠ [])
    (h : ∀ p ∈ ps, ∀ c ∈ p, c ≠ ',') :
    splitOnComma (joinComma ps) = ps := by
  induction ps with
  | nil => exact absurd rfl hne
  | cons p ps' ih =>
    cases ps' with
    | nil => exact splitOnComma_no_comma p (h p (by simp))
    | cons q qs =>
      show splitOnComma (p ++ ',' :: joinComma (q :: qs)) = _
      rw [splitOnComma_append p _ (h p (by simp))]
      rw [ih (by simp) (fun x hx => h x (List.mem_cons_of_mem _ hx))]

theorem wsSplitAux_nonws_append (t l acc : List Char) (h : ∀ c ∈ t, isWs c = false) :
    wsSplitAux (t ++ l) acc = wsSplitAux l (t.reverse ++ acc) := by
  induction t generalizing acc with
  | nil => simp
  | cons c t' ih =>
    have hc : isWs c = false := h c (by simp)
    simp only [List.cons_append, wsSplitAux, hc, List.append_eq]
    simp only [Bool.false_eq_true, if_false]
    rw [ih (c :: acc) (fun x hx => h x (List.mem_cons_of_mem _ hx))]
    simp

theorem wsSplit_joinSpace (ts : List (List Char))
    (h : ∀ t ∈ ts, t ≠ [] ∧ ∀ c ∈ t, isWs c = false) :
    wsSplit (joinSpace ts) = ts := by
  induction ts with
  | nil => rfl
  | cons t ts' ih =>
    obtain ⟨htne, htc⟩ := h t (by simp)
    have hre : t.reverse.isEmpty = false := by
      cases t with
      | nil => exact absurd rfl htne
      | cons a b => simp [List.isEmpty_iff]
    cases ts' with
    | nil =>
      show wsSplit t = [t]
      unfold wsSplit
      have h0 := wsSplitAux_nonws_append t [] [] htc
      simp only [List.append_nil] at h0
      rw [h0]
      simp only [wsSplitAux, hre]
      simp
    | cons u us =>
      show wsSplit (t ++ ' ' :: joinSpace (u :: us)) = _
      unfold wsSplit
      rw [wsSplitAux_nonws_append t _ [] htc]
      simp only [List.append_nil, wsSplitAux, show isWs ' ' = true from rfl, if_true, hre]
      simp only [Bool.false_eq_true, if_false, List.reverse_reverse]
      rw [show wsSplitAux (joinSpace (u :: us)) [] = wsSplit (joinSpace (u :: us)) from rfl]
      rw [ih (fun x hx => h x (List.mem_cons_of_mem _ hx))]

theorem string_mk_data (s : String) : String.mk s.data = s := by
  cases s
  rfl

theorem isWs_cases {c : Char} (h : isWs c = true) :
    c = ' ' ∨ c = '\t' ∨ c = '\n' ∨ c = '\r' ∨ c = '\x0b' ∨ c = '\x0c' := by
  simp only [isWs, Bool.or_eq_true, beq_iff_eq] at h
  tauto

theorem synTokCh_not_ws {c : Char} (h : isSynTokCh c = true) : isWs c = false := by
  cases hw : isWs c with
  | false => rfl
  | true =>
    rcases isWs_cases hw with rfl | rfl | rfl | rfl | rfl | rfl <;>
      exact absurd h (by decide)

theorem wordCh_not_ws {c : Char} (h : isWordCh c = true) : isWs c = false := by
  cases hw : isWs c with
  | false => rfl
  | true =>
    rcases isWs_cases hw with rfl | rfl | rfl | rfl | rfl | rfl <;>
      exact absurd h (by decide)

theorem synTokCh_is_syn {c : Char} (h : isSynTokCh c = true) : isSynCh c = true := by
  simp only [isSynTokCh, Bool.or_eq_true] at h
  simp only [isSynCh, Bool.or_eq_true]
  tauto

theorem synTokCh_ne_comma {c : Char} (h : isSynTokCh c = true) : c ≠ ',' := by
  intro hc
  subst hc
  exact absurd h (by decide)

theorem synTokCh_ne_lbracket {c : Char} (h : isSynTokCh c = true) : c ≠ '[' := by
  intro hc
  subst hc
  exact absurd h (by decide)

theorem synTokCh_ne_rbracket {c : Char} (h : isSynTokCh c = true) : c ≠ ']' := by
  intro hc
  subst hc
  exact absurd h (by decide)

theorem synTokCh_ne_hash {c : Char} (h : isSynTokCh c = true) : c ≠ '#' := by
  intro hc
  subst hc
  exact absurd h (by decide)

theorem upperCh_not_ws {c : Char} (h : isUpperCh c = true) : isWs c = false := by
  cases hw : isWs c with
  | false => rfl
  | true =>
    rcases isWs_cases hw with rfl | rfl | rfl | rfl | rfl | rfl <;>
      exact absurd h (by decide)

theorem rstripChars_length_le (l : List Char) : (rstripChars l).length ≤ l.length := by
  unfold rstripChars
  have := dropWhile_length_le isWs l.reverse
  simp only [List.length_reverse] at this ⊢
  omega

theorem stripChars_length_le (l : List Char) : (stripChars l).length ≤ l.length := by
  unfold stripChars dropLeadWs
  have h1 := rstripChars_length_le (l.dropWhile isWs)
  have h2 := dropWhile_length_le isWs l
  omega

/-- A nonempty list fixed by `strip` has a non-whitespace head, hence is
also fixed by each one-sided strip. -/
theorem strip_id_parts (l : List Char) (hne : l ≠ []) (h : stripChars l = l) :
    dropLeadWs l = l ∧ rstripChars l = l := by
  cases l with
  | nil => exact absurd rfl hne
  | cons c t =>
    have hc : isWs c = false := by
      cases hw : isWs c with
      | false => rfl
      | true =>
        exfalso
        have hs : stripChars (c :: t) = stripChars t := by
          unfold stripChars dropLeadWs
          rw [List.dropWhile_cons, hw]
          simp
        rw [hs] at h
        have := stripChars_length_le t
        have := congrArg List.length h
        simp at this
        omega
    have hd : dropLeadWs (c :: t) = c :: t := dropWhile_cons_neg _ _ _ hc
    refine ⟨hd, ?_⟩
    have : stripChars (c :: t) = rstripChars (c :: t) := by
      unfold stripChars
      rw [hd]
    rw [← this, h]

/-- Evaluation of `PARAM_LINE_RE.match` on a well-formed parameter line. -/
theorem matchParamLine_eval (name typ desc : List Char)
    (hn : name ≠ []) (hnc : ∀ c ∈ name, isWordCh c = true)
    (ht : typ ≠ []) (htc : ∀ c ∈ typ, isUpperCh c = true)
    (hd : desc ≠ []) (hds : stripChars desc = desc) :
    matchParamLine (String.mk (name ++ ' ' :: (typ ++ ' ' :: ' ' :: desc))) =
      some (String.mk name, String.mk typ, String.mk desc) := by
  obtain ⟨n0, nt, rfl⟩ : ∃ c t, name = c :: t := by
    cases name with
    | nil => exact absurd rfl hn
    | cons a b => exact ⟨a, b, rfl⟩
  obtain ⟨t0, tt, rfl⟩ : ∃ c t, typ = c :: t := by
    cases typ with
    | nil => exact absurd rfl ht
    | cons a b => exact ⟨a, b, rfl⟩
  obtain ⟨d0, dt, rfl⟩ : ∃ c t, desc = c :: t := by
    cases desc with
    | nil => exact absurd rfl hd
    | cons a b => exact ⟨a, b, rfl⟩
  obtain ⟨hdl, hdr⟩ := strip_id_parts _ (by simp) hds
  have hd0 : isWs d0 = false := by
    cases hw : isWs d0 with
    | false => rfl
    | true =>
      unfold dropLeadWs at hdl
      rw [List.dropWhile_cons, hw] at hdl
      simp at hdl
      have := dropWhile_length_le isWs dt
      have := congrArg List.length hdl
      simp at this
      omega
  have e0 : dropLeadWs ((n0 :: nt) ++ ' ' :: ((t0 :: tt) ++ ' ' :: ' ' :: (d0 :: dt)))
      = (n0 :: nt) ++ ' ' :: ((t0 :: tt) ++ ' ' :: ' ' :: (d0 :: dt)) :=
    dropWhile_cons_neg _ _ _ (wordCh_not_ws (hnc n0 (by simp)))
  have e1 : ((n0 :: nt) ++ ' ' :: ((t0 :: tt) ++ ' ' :: ' ' :: (d0 :: dt))).takeWhile isWordCh
      = n0 :: nt := by
    rw [takeWhile_all_append _ _ _ hnc, takeWhile_cons_neg _ _ _ (by decide)]
    simp
  have e2 : ((n0 :: nt) ++ ' ' :: ((t0 :: tt) ++ ' ' :: ' ' :: (d0 :: dt))).dropWhile isWordCh
      = ' ' :: ((t0 :: tt) ++ ' ' :: ' ' :: (d0 :: dt)) := by
    rw [dropWhile_all_append _ _ _ hnc]
    exact dropWhile_cons_neg _ _ _ (by decide)
  have e4 : (' ' :: ((t0 :: tt) ++ ' ' :: ' ' :: (d0 :: dt))).dropWhile isWs
      = (t0 :: tt) ++ ' ' :: ' ' :: (d0 :: dt) := by
    rw [List.dropWhile_cons]
    simp only [show isWs ' ' = true from rfl, if_true]
    rw [List.cons_append]
    exact dropWhile_cons_neg _ _ _ (upperCh_not_ws (htc t0 (by simp)))
  have e5 : ((t0 :: tt) ++ ' ' :: ' ' :: (d0 :: dt)).takeWhile isUpperCh = t0 :: tt := by
    rw [takeWhile_all_append _ _ _ htc, takeWhile_cons_neg _ _ _ (by decide)]
    simp
  have e6 : ((t0 :: tt) ++ ' ' :: ' ' :: (d0 :: dt)).dropWhile isUpperCh
      = ' ' :: ' ' :: (d0 :: dt) := by
    rw [dropWhile_all_append _ _ _ htc]
    exact dropWhile_cons_neg _ _ _ (by decide)
  have e8 : (' ' :: ' ' :: (d0 :: dt)).dropWhile isWs = d0 :: dt := by
    simp [List.dropWhile_cons, hd0, show isWs ' ' = true from rfl]
  unfold matchParamLine
  simp only [show (String.mk ((n0 :: nt) ++ ' ' :: ((t0 :: tt) ++ ' ' :: ' ' :: (d0 :: dt)))).data
    = (n0 :: nt) ++ ' ' :: ((t0 :: tt) ++ ' ' :: ' ' :: (d0 :: dt)) from rfl]
  simp only [e0, e1, e2, e4, e5, e6, e8]
  simp only [List.isEmpty_cons, List.takeWhile_cons, show isWs ' ' = true from rfl, if_true,
    Bool.false_eq_true, if_false, hdr]

/-! ## Attachment lemmas -/

theorem hasName_append_single {β : Type} (ns : List (String × β)) (m : String) (b : β)
    (n : String) : hasName (ns ++ [(m, b)]) n = (hasName ns n || (m == n)) := by
  simp [hasName, List.any_append]

theorem hasName_lookup_none {β : Type} (ns : List (String × β)) (n : String)
    (h : hasName ns n = false) : nsLookup ns n = none := by
  unfold nsLookup
  have : ns.find? (fun e => e.1 == n) = none := by
    rw [List.find?_eq_none]
    intro x hx hpx
    have ht : hasName ns n = true := by
      rw [hasName, List.any_eq_true]
      exact ⟨x, hx, hpx⟩
    rw [h] at ht
    cases ht
  rw [this]
  rfl

theorem hasName_count_zero {β : Type} (ns : List (String × β)) (n : String)
    (h : hasName ns n = false) : countName ns n = 0 := by
  unfold countName
  have : ns.filter (fun e => e.1 == n) = [] := by
    rw [List.filter_eq_nil]
    intro x hx hpx
    have ht : hasName ns n = true := by
      rw [hasName, List.any_eq_true]
      exact ⟨x, hx, hpx⟩
    rw [h] at ht
    cases ht
  rw [this]
  rfl

theorem countName_append {β : Type} (ns ms : List (String × β)) (n : String) :
    countName (ns ++ ms) n = countName ns n + countName ms n := by
  simp [countName, List.filter_append]

theorem nsLookup_append_found {β : Type} (ns ms : List (String × β)) (n : String)
    (h : hasName ns n = true) : nsLookup (ns ++ ms) n = nsLookup ns n := by
  unfold nsLookup
  rw [List.find?_append]
  rw [hasName, List.any_eq_true] at h
  obtain ⟨x, hx, hpx⟩ := h
  cases hf : ns.find? (fun e => e.1 == n) with
  | none =>
    rw [List.find?_eq_none] at hf
    exact absurd hpx (hf x hx)
  | some y => rfl

theorem nsLookup_append_of_not {β : Type} (ns : List (String × β)) (m : String) (b : β)
    (n : String) (h : hasName ns n = false) :
    nsLookup (ns ++ [(m, b)]) n = if m == n then some b else none := by
  unfold nsLookup
  rw [List.find?_append]
  have hf : ns.find? (fun e => e.1 == n) = none := by
    rw [List.find?_eq_none]
    intro x hx hpx
    have ht : hasName ns n = true := by
      rw [hasName, List.any_eq_true]
      exact ⟨x, hx, hpx⟩
    rw [h] at ht
    cases ht
  rw [hf]
  by_cases hm : (m == n) = true
  · simp [List.find?_cons, hm]
  · have hm' : (m == n) = false := by simpa using hm
    simp [List.find?_cons, hm']

theorem attach_preserve {β : Type} (synth : CallSpec → β) (specs : List CallSpec)
    (ns : List (String × β)) (n : String) (h : hasName ns n = true) :
    nsLookup (attachSpecs synth specs ns) n = nsLookup ns n ∧
      countName (attachSpecs synth specs ns) n = countName ns n := by
  induction specs generalizing ns with
  | nil => exact ⟨rfl, rfl⟩
  | cons s rest ih =>
    simp only [attachSpecs]
    by_cases hs : hasName ns s.op = true
    · simp only [hs, if_true]
      exact ih ns h
    · have hs' : hasName ns s.op = false := by simpa using hs
      simp only [hs', Bool.false_eq_true, if_false]
      have hne : (s.op == n) = false := by
        cases hq : (s.op == n) with
        | false => rfl
        | true =>
          have heq : s.op = n := eq_of_beq hq
          rw [heq] at hs'
          rw [hs'] at h
          cases h
      have h2 : hasName (ns ++ [(s.op, synth s)]) n = true := by
        rw [hasName_append_single]
        simp [h]
      obtain ⟨l1, c1⟩ := ih (ns ++ [(s.op, synth s)]) h2
      refine ⟨?_, ?_⟩
      · rw [l1, nsLookup_append_found ns _ n h]
      · rw [c1, countName_append]
        have hz : countName [(s.op, synth s)] n = 0 := by
          simp [countName, List.filter_cons, hne]
        omega

theorem attach_fresh {β : Type} (synth : CallSpec → β) (specs : List CallSpec)
    (ns : List (String × β)) (n : String) (h : hasName ns n = false) :
    nsLookup (attachSpecs synth specs ns) n = (specs.find? (fun s => s.op == n)).map synth ∧
      countName (attachSpecs synth specs ns) n =
        (if specs.any (fun s => s.op == n) then 1 else 0) := by
  induction specs generalizing ns with
  | nil =>
    simp only [attachSpecs, List.find?_nil, List.any_nil, Option.map_none', Bool.false_eq_true,
      if_false]
    exact ⟨hasName_lookup_none ns n h, hasName_count_zero ns n h⟩
  | cons s rest ih =>
    simp only [attachSpecs]
    by_cases hq : (s.op == n) = true
    · have heq : s.op = n := eq_of_beq hq
      have hs' : hasName ns s.op = false := by rw [heq]; exact h
      simp only [hs', Bool.false_eq_true, if_false]
      have h2 : hasName (ns ++ [(s.op, synth s)]) n = true := by
        rw [hasName_append_single]
        simp [hq]
      obtain ⟨l1, c1⟩ := attach_preserve synth rest (ns ++ [(s.op, synth s)]) n h2
      refine ⟨?_, ?_⟩
      · rw [l1, nsLookup_append_of_not ns _ _ n h]
        simp [List.find?_cons, hq]
      · rw [c1, countName_append, hasName_count_zero ns n h]
        simp [countName, List.filter_cons, hq, List.any_cons]
    · have hqf : (s.op == n) = false := by simpa using hq
      by_cases hs : hasName ns s.op = true
      · simp only [hs, if_true]
        obtain ⟨l1, c1⟩ := ih ns h
        refine ⟨?_, ?_⟩
        · rw [l1]
          simp [List.find?_cons, hqf]
        · rw [c1]
          simp [List.any_cons, hqf]
      · have hs' : hasName ns s.op = false := by simpa using hs
        simp only [hs', Bool.false_eq_true, if_false]
        have h2 : hasName (ns ++ [(s.op, synth s)]) n = false := by
          rw [hasName_append_single]
          simp [h, hqf]
        obtain ⟨l1, c1⟩ := ih (ns ++ [(s.op, synth s)]) h2
        refine ⟨?_, ?_⟩
        · rw [l1]
          simp [List.find?_cons, hqf]
        · rw [c1]
          simp [List.any_cons, hqf]

theorem hasName_of_count_one {β : Type} (ns : List (String × β)) (n : String)
    (h : countName ns n = 1) : hasName ns n = true := by
  cases hb : hasName ns n with
  | true => rfl
  | false =>
    rw [hasName_count_zero ns n hb] at h
    cases h

/-! ## Claim theorems -/

/-- **C3**: template expansion maps each `isTemplate` CallSpec to one
ConcreteCallSpec per candidate name with `requiredParams`, `optionalParams`
and the I/O token lists copied verbatim and `isTemplate` cleared; a
non-template CallSpec passes through unchanged; a template with an empty
candidate list yields zero specs and no error; expansion distributes over
the spec list; and the spec's worked example (`<operator>,p1 in out` with
OPERATORS entries `sinfo` and `sinfon`) expands to exactly the two expected
ConcreteCallSpecs, both carrying `requiredParams = ["p1"]`. -/
theorem template_expansion_correct :
    (∀ (s : CallSpec) (names : List String), s.is_template = true →
       expandTemplateSpecs [s] names =
         names.map (fun n =>
           { op := n, required_params := s.required_params,
             optional_params := s.optional_params, in_tokens := s.in_tokens,
             out_tokens := s.out_tokens, is_template := false }))
    ∧ (∀ (s : CallSpec) (names : List String), s.is_template = false →
        expandTemplateSpecs [s] names = [s])
    ∧ (∀ s : CallSpec, s.is_template = true → expandTemplateSpecs [s] [] = [])
    ∧ (∀ (specs1 specs2 : List CallSpec) (names : List String),
        expandTemplateSpecs (specs1 ++ specs2) names =
          expandTemplateSpecs specs1 names ++ expandTemplateSpecs specs2 names)
    ∧ pageSpecs ["SYNOPSIS", "    <operator>,p1 in out", "OPERATORS",
        "sinfo   short desc", "sinfon  other desc"] = Except.ok
        [{ op := "sinfo", required_params := ["p1"], optional_params := [],
           in_tokens := ["in"], out_tokens := ["out"], is_template := false },
         { op := "sinfon", required_params := ["p1"], optional_params := [],
           in_tokens := ["in"], out_tokens := ["out"], is_template := false }] := by
  refine ⟨?_, ?_, ?_, ?_, rfl⟩
  · intro s names h
    cases s
    simp only at h
    subst h
    simp [expandTemplateSpecs]
  · intro s names h
    cases s
    simp only at h
    subst h
    simp [expandTemplateSpecs]
  · intro s h
    simp [expandTemplateSpecs, h]
  · intro specs1 specs2 names
    induction specs1 with
    | nil => simp [expandTemplateSpecs]
    | cons s rest ih => simp [expandTemplateSpecs, ih, List.append_assoc]

/-- Witness for C3: the general parts applied at concrete inputs. -/
theorem template_expansion_correct_witness :
    expandTemplateSpecs
        [{ op := "<operator>", required_params := ["p1"], optional_params := ["f"],
           in_tokens := ["in"], out_tokens := ["out"], is_template := true }]
        ["sinfo", "sinfon"] =
      [{ op := "sinfo", required_params := ["p1"], optional_params := ["f"],
         in_tokens := ["in"], out_tokens := ["out"], is_template := false },
       { op := "sinfon", required_params := ["p1"], optional_params := ["f"],
         in_tokens := ["in"], out_tokens := ["out"], is_template := false }]
    ∧ expandTemplateSpecs
        [{ op := "sinfo", required_params := [], optional_params := [],
           in_tokens := ["in"], out_tokens := [], is_template := false }] ["x", "y"] =
      [{ op := "sinfo", required_params := [], optional_params := [],
         in_tokens := ["in"], out_tokens := [], is_template := false }]
    ∧ expandTemplateSpecs
        [{ op := "<operator>", required_params := [], optional_params := [],
           in_tokens := [], out_tokens := [], is_template := true }] [] = [] := by
  refine ⟨?_, ?_, ?_⟩
  · exact (template_expansion_correct.1 _ ["sinfo", "sinfon"] rfl).trans rfl
  · exact template_expansion_correct.2.1 _ ["x", "y"] rfl
  · exact template_expansion_correct.2.2.1 _ rfl

/-- **C4**: attachment is idempotent with first-writer-wins.  (a) If the
namespace already has a member named `n`, attaching any spec list never
changes the binding or the number of entries for `n`.  (b) If it does not,
after attachment the binding for `n` is the synthesis of the *first* spec
named `n` (none if there is none), and there is exactly one entry for `n`
when some spec carries it.  (c) Attaching a second batch (e.g. a second
overlapping template expansion) never overwrites: the binding remains the
first batch's first synthesis, and exactly one bound callable exists. -/
theorem attach_first_writer_wins :
    (∀ (β : Type) (synth : CallSpec → β) (specs : List CallSpec)
       (ns : List (String × β)) (n : String), hasName ns n = true →
        nsLookup (attachSpecs synth specs ns) n = nsLookup ns n ∧
          countName (attachSpecs synth specs ns) n = countName ns n)
    ∧ (∀ (β : Type) (synth : CallSpec → β) (specs : List CallSpec)
        (ns : List (String × β)) (n : String), hasName ns n = false →
         nsLookup (attachSpecs synth specs ns) n =
             (specs.find? (fun s => s.op == n)).map synth ∧
           countName (attachSpecs synth specs ns) n =
             (if specs.any (fun s => s.op == n) then 1 else 0))
    ∧ (∀ (β : Type) (synth synth2 : CallSpec → β) (specs specs2 : List CallSpec)
        (ns : List (String × β)) (n : String), hasName ns n = false →
         specs.any (fun s => s.op == n) = true →
          nsLookup (attachSpecs synth2 specs2 (attachSpecs synth specs ns)) n =
              (specs.find? (fun s => s.op == n)).map synth ∧
            countName (attachSpecs synth2 specs2 (attachSpecs synth specs ns)) n = 1) := by
  refine ⟨?_, ?_, ?_⟩
  · intro β synth specs ns n h
    exact attach_preserve synth specs ns n h
  · intro β synth specs ns n h
    exact attach_fresh synth specs ns n h
  · intro β synth synth2 specs specs2 ns n h hany
    obtain ⟨l1, c1⟩ := attach_fresh synth specs ns n h
    rw [hany, if_pos rfl] at c1
    have h2 : hasName (attachSpecs synth specs ns) n = true :=
      hasName_of_count_one _ n c1
    obtain ⟨l2, c2⟩ := attach_preserve synth2 specs2 (attachSpecs synth specs ns) n h2
    exact ⟨l2.trans l1, c2.trans c1⟩

/-- Witness for C4: a concrete namespace with an existing member `b`, specs
for `a`, `b` and a duplicate `a`; attachment keeps `b`, binds `a` to the
first synthesis, and a second attachment round changes nothing. -/
theorem attach_first_writer_wins_witness :
    nsLookup (attachSpecs (fun s => s.op ++ "*")
        [{ op := "a", required_params := [], optional_params := [], in_tokens := [],
           out_tokens := [], is_template := false },
         { op := "b", required_params := [], optional_params := [], in_tokens := [],
           out_tokens := [], is_template := false },
         { op := "a", required_params := ["q"], optional_params := [], in_tokens := [],
           out_tokens := [], is_template := false }] [("b", "old")]) "b" = some "old"
    ∧ nsLookup (attachSpecs (fun s => s.op ++ "*")
        [{ op := "a", required_params := [], optional_params := [], in_tokens := [],
           out_tokens := [], is_template := false },
         { op := "a", required_params := ["q"], optional_params := [], in_tokens := [],
           out_tokens := [], is_template := false }] [("b", "old")]) "a" = some "a*"
    ∧ countName (attachSpecs (fun s => s.op ++ "#")
        [{ op := "a", required_params := ["q"], optional_params := [], in_tokens := [],
           out_tokens := [], is_template := false }]
        (attachSpecs (fun s => s.op ++ "*")
          [{ op := "a", required_params := [], optional_params := [], in_tokens := [],
             out_tokens := [], is_template := false }] [])) "a" = 1 := by
  refine ⟨?_, ?_, ?_⟩
  · exact (attach_first_writer_wins.1 String _ _ [("b", "old")] "b" rfl).1.trans rfl
  · exact (attach_first_writer_wins.2.1 String _ _ [("b", "old")] "a" rfl).1.trans rfl
  · exact (attach_first_writer_wins.2.2 String (fun s => s.op ++ "*") (fun s => s.op ++ "#")
      [{ op := "a", required_params := [], optional_params := [], in_tokens := [],
         out_tokens := [], is_template := false }]
      [{ op := "a", required_params := ["q"], optional_params := [], in_tokens := [],
         out_tokens := [], is_template := false }] [] "a" rfl (by decide)).2

/-! ## Synopsis-line lemmas -/

theorem joinComma_cons_eq (x : List Char) (xs : List (List Char)) :
    joinComma (x :: xs) =
      x ++ (match xs with | [] => [] | _ :: _ => ',' :: joinComma xs) := by
  cases xs <;> simp [joinComma]

theorem joinSpace_cons_eq (x : List Char) (xs : List (List Char)) :
    joinSpace (x :: xs) =
      x ++ (match xs with | [] => [] | _ :: _ => ' ' :: joinSpace xs) := by
  cases xs <;> simp [joinSpace]

theorem joinComma_forall {P : Char → Prop} (ps : List (List Char))
    (hP : ∀ p ∈ ps, ∀ c ∈ p, P c) (hc : P ',') : ∀ c ∈ joinComma ps, P c := by
  induction ps with
  | nil =>
    intro c hm
    simp [joinComma] at hm
  | cons p ps' ih =>
    intro c hm
    rw [joinComma_cons_eq] at hm
    rcases List.mem_append.mp hm with h1 | h2
    · exact hP p (by simp) c h1
    · cases ps' with
      | nil => simp at h2
      | cons q qs =>
        rcases List.mem_cons.mp h2 with rfl | h3
        · exact hc
        · exact ih (fun x hx => hP x (List.mem_cons_of_mem _ hx)) c h3

theorem joinSpace_forall {P : Char → Prop} (ps : List (List Char))
    (hP : ∀ p ∈ ps, ∀ c ∈ p, P c) (hc : P ' ') : ∀ c ∈ joinSpace ps, P c := by
  induction ps with
  | nil =>
    intro c hm
    simp [joinSpace] at hm
  | cons p ps' ih =>
    intro c hm
    rw [joinSpace_cons_eq] at hm
    rcases List.mem_append.mp hm with h1 | h2
    · exact hP p (by simp) c h1
    · cases ps' with
      | nil => simp at h2
      | cons q qs =>
        rcases List.mem_cons.mp h2 with rfl | h3
        · exact hc
        · exact ih (fun x hx => hP x (List.mem_cons_of_mem _ hx)) c h3

theorem joinComma_ne_nil (p : List Char) (ps : List (List Char)) (hp : p ≠ []) :
    joinComma (p :: ps) ≠ [] := by
  rw [joinComma_cons_eq]
  cases ps <;> simp [hp]

theorem joinSpace_ne_nil (p : List Char) (ps : List (List Char)) (hp : p ≠ []) :
    joinSpace (p :: ps) ≠ [] := by
  rw [joinSpace_cons_eq]
  cases ps <;> simp [hp]

theorem bracketAux_clean_append (xs l : List Char) (h : ∀ c ∈ xs, c ≠ '[') :
    bracketAux (xs ++ l) none = ((bracketAux l none).1, xs ++ (bracketAux l none).2) := by
  induction xs with
  | nil => simp
  | cons c t ih =>
    have hc : ¬ c = '[' := h c (by simp)
    simp only [List.cons_append, bracketAux, if_neg hc, List.append_eq]
    rw [ih (fun x hx => h x (List.mem_cons_of_mem _ hx))]

theorem bracketAux_inside (content after pend : List Char) (h : ∀ c ∈ content, c ≠ ']') :
    bracketAux (content ++ ']' :: after) (some pend) =
      bracketAux (']' :: after) (some (content.reverse ++ pend)) := by
  induction content generalizing pend with
  | nil => simp
  | cons c t ih =>
    have hc : ¬ c = ']' := h c (by simp)
    simp only [List.cons_append, bracketAux, if_neg hc, List.append_eq]
    rw [ih (c :: pend) (fun x hx => h x (List.mem_cons_of_mem _ hx))]
    exact congrArg (fun x => bracketAux (']' :: after) (some x)) (by simp)

theorem bracketAux_group (content after : List Char) (hne : content ≠ [])
    (h : ∀ c ∈ content, c ≠ ']') :
    bracketAux ('[' :: (content ++ ']' :: after)) none =
      (content :: (bracketAux after none).1, (bracketAux after none).2) := by
  have h0 : bracketAux ('[' :: (content ++ ']' :: after)) none
      = bracketAux (content ++ ']' :: after) (some []) := by
    simp [bracketAux]
  rw [h0, bracketAux_inside content after [] h]
  have hpe : (content.reverse ++ []).isEmpty = false := by
    cases hr : content.reverse with
    | nil => exact absurd (by simpa using congrArg List.reverse hr) hne
    | cons a b => simp
  simp only [bracketAux, if_pos rfl, hpe, Bool.false_eq_true, if_false]
  simp

theorem map_mk_data (l : List String) : (l.map String.data).map String.mk = l := by
  rw [List.map_map]
  have hfn : (String.mk ∘ String.data) = id := funext string_mk_data
  rw [hfn, List.map_id]

theorem string_data_ne_nil (t : String) (h : t ≠ "") : t.data ≠ [] := by
  intro hx
  exact h (by rw [← string_mk_data t, hx])

/-- The bracket pass over a rendered left half: the group contents in
order, and the comma-joined residues of the segments (groups vanish). -/
theorem bracketAux_leftChars (segs : List SynSeg) (h : ∀ s ∈ segs, wfSeg s) :
    bracketAux (leftChars segs) none =
      ((segGrps segs).map (fun g => joinComma (g.map String.data)),
       joinComma (segs.map segRem)) := by
  induction segs with
  | nil => simp [leftChars, joinComma, segGrps, bracketAux, segRem]
  | cons s rest ih =>
    have hs := h s (by simp)
    have ihh := ih (fun x hx => h x (List.mem_cons_of_mem _ hx))
    cases s with
    | tok t =>
      simp only [wfSeg, wfSynTok] at hs
      obtain ⟨htne, htc⟩ := hs
      have hnotbr : ∀ c ∈ t.data, c ≠ '[' := fun c hc => synTokCh_ne_lbracket (htc c hc)
      have hsgr : segGrps (SynSeg.tok t :: rest) = segGrps rest := by
        simp [segGrps, List.filterMap_cons]
      cases rest with
      | nil =>
        have hl : leftChars [SynSeg.tok t] = t.data ++ [] := by
          simp [leftChars, joinComma, segChars]
        rw [hl, bracketAux_clean_append t.data [] hnotbr]
        simp [segGrps, segRem, joinComma, bracketAux, List.filterMap_cons]
      | cons s2 rest2 =>
        have hl : leftChars (SynSeg.tok t :: s2 :: rest2)
            = (t.data ++ [',']) ++ leftChars (s2 :: rest2) := by
          show joinComma (segChars (SynSeg.tok t) :: (s2 :: rest2).map segChars) = _
          rw [joinComma_cons_eq]
          simp [segChars, leftChars, List.append_assoc]
        have hcomma : ∀ c ∈ t.data ++ [','], c ≠ '[' := by
          intro c hc
          rcases List.mem_append.mp hc with h1 | h2
          · exact hnotbr c h1
          · simp at h2
            subst h2
            decide
        rw [hl, bracketAux_clean_append _ _ hcomma, ihh, hsgr]
        rw [show (SynSeg.tok t :: s2 :: rest2).map segRem
          = t.data :: (s2 :: rest2).map segRem from by simp [segRem]]
        rw [joinComma_cons_eq]
        simp [List.append_assoc]
    | grp g =>
      simp only [wfSeg] at hs
      obtain ⟨hgne, hgi⟩ := hs
      obtain ⟨i0, irest, rfl⟩ : ∃ i is, g = i :: is := by
        cases g with
        | nil => exact absurd rfl hgne
        | cons a b => exact ⟨a, b, rfl⟩
      have hi0 := hgi i0 (by simp)
      have hcontne : joinComma ((i0 :: irest).map String.data) ≠ [] := by
        simp only [List.map_cons]
        exact joinComma_ne_nil _ _ (string_data_ne_nil i0 hi0.1)
      have hcontnr : ∀ c ∈ joinComma ((i0 :: irest).map String.data), c ≠ ']' := by
        apply joinComma_forall
        · intro p hp c hc
          obtain ⟨i, hi, rfl⟩ := List.mem_map.mp hp
          exact synTokCh_ne_rbracket ((hgi i hi).2 c hc)
        · decide
      have hsgr : segGrps (SynSeg.grp (i0 :: irest) :: rest)
          = (i0 :: irest) :: segGrps rest := by
        simp [segGrps, List.filterMap_cons]
      cases rest with
      | nil =>
        have hl : leftChars [SynSeg.grp (i0 :: irest)]
            = '[' :: (joinComma ((i0 :: irest).map String.data) ++ ']' :: []) := by
          simp [leftChars, joinComma, segChars]
        rw [hl, bracketAux_group _ _ hcontne hcontnr]
        simp [segGrps, segRem, joinComma, bracketAux, List.filterMap_cons]
      | cons s2 rest2 =>
        have hl : leftChars (SynSeg.grp (i0 :: irest) :: s2 :: rest2)
            = '[' :: (joinComma ((i0 :: irest).map String.data)
                ++ ']' :: (',' :: leftChars (s2 :: rest2))) := by
          show joinComma (segChars (SynSeg.grp (i0 :: irest)) :: (s2 :: rest2).map segChars) = _
          rw [joinComma_cons_eq]
          simp [segChars, leftChars, List.append_assoc]
        rw [hl, bracketAux_group _ _ hcontne hcontnr]
        have hstep : bracketAux (',' :: leftChars (s2 :: rest2)) none
            = ((bracketAux (leftChars (s2 :: rest2)) none).1,
               ',' :: (bracketAux (leftChars (s2 :: rest2)) none).2) := by
          have := bracketAux_clean_append [','] (leftChars (s2 :: rest2)) (by decide)
          simpa using this
        rw [hstep, ihh, hsgr]
        rw [show (SynSeg.grp (i0 :: irest) :: s2 :: rest2).map segRem
          = [] :: (s2 :: rest2).map segRem from by simp [segRem]]
        rw [joinComma_cons_eq]
        simp [List.append_assoc]

/-- The non-empty residue pieces are exactly the plain tokens. -/
theorem filter_segRem (segs : List SynSeg) (h : ∀ s ∈ segs, wfSeg s) :
    (segs.map segRem).filter (fun p => !p.isEmpty) = (segToks segs).map String.data := by
  induction segs with
  | nil => rfl
  | cons s rest ih =>
    have ihh := ih (fun x hx => h x (List.mem_cons_of_mem _ hx))
    cases s with
    | tok t =>
      have hs := h (SynSeg.tok t) (by simp)
      simp only [wfSeg, wfSynTok] at hs
      have htne : t.data.isEmpty = false := by
        cases hx : t.data with
        | nil => exact absurd hx (string_data_ne_nil t hs.1)
        | cons a b => simp
      simp [segRem, segToks, List.filterMap_cons, List.filter_cons, htne, ihh]
    | grp g =>
      simp [segRem, segToks, List.filterMap_cons, List.filter_cons, ihh]

/-- A group in `segGrps` comes from a `grp` segment. -/
theorem mem_segGrps (segs : List SynSeg) (g : List String) (hg : g ∈ segGrps segs) :
    SynSeg.grp g ∈ segs := by
  unfold segGrps at hg
  obtain ⟨s, hsm, hsf⟩ := List.mem_filterMap.mp hg
  cases s with
  | tok t => cases hsf
  | grp g2 =>
    simp at hsf
    subst hsf
    exact hsm

/-- The optional-parameter computation of the synopsis parser, on the group
contents of a rendered left half, recovers the flattened groups. -/
theorem opt_eval (segs : List SynSeg) (h : ∀ s ∈ segs, wfSeg s) :
    (((((segGrps segs).map (fun g => joinComma (g.map String.data))).map
        splitOnComma).flatten.map stripChars).filter (fun i => !i.isEmpty)).map String.mk
      = (segGrps segs).flatten := by
  have hwfg : ∀ g ∈ segGrps segs, g ≠ [] ∧ ∀ i ∈ g, wfSynTok i := by
    intro g hg
    have := h (SynSeg.grp g) (mem_segGrps segs g hg)
    simpa [wfSeg] using this
  have h1 : ((segGrps segs).map (fun g => joinComma (g.map String.data))).map splitOnComma
      = (segGrps segs).map (fun g => g.map String.data) := by
    rw [List.map_map]
    apply List.map_congr_left
    intro g hg
    obtain ⟨hgne, hgi⟩ := hwfg g hg
    show splitOnComma (joinComma (g.map String.data)) = g.map String.data
    apply splitOnComma_joinComma
    · intro hx
      cases g with
      | nil => exact absurd rfl hgne
      | cons a b => simp at hx
    · intro p hp c hc
      obtain ⟨i, hi, rfl⟩ := List.mem_map.mp hp
      exact synTokCh_ne_comma ((hgi i hi).2 c hc)
  rw [h1]
  have h2 : ((segGrps segs).map (fun g => g.map String.data)).flatten.map stripChars
      = ((segGrps segs).map (fun g => g.map String.data)).flatten := by
    have hid : ∀ i ∈ ((segGrps segs).map (fun g => g.map String.data)).flatten,
        stripChars i = i := by
      intro i hi
      obtain ⟨l, hl, hil⟩ := List.mem_flatten.mp hi
      obtain ⟨g, hg, rfl⟩ := List.mem_map.mp hl
      obtain ⟨x, hx, rfl⟩ := List.mem_map.mp hil
      exact stripChars_of_all_nonws _
        (fun c hc => synTokCh_not_ws (((hwfg g hg).2 x hx).2 c hc))
    exact (List.map_congr_left hid).trans (List.map_id _)
  rw [h2]
  have h3 : (((segGrps segs).map (fun g => g.map String.data)).flatten).filter
      (fun i => !i.isEmpty) = ((segGrps segs).map (fun g => g.map String.data)).flatten := by
    rw [List.filter_eq_self]
    intro a ha
    obtain ⟨l, hl, hil⟩ := List.mem_flatten.mp ha
    obtain ⟨g, hg, rfl⟩ := List.mem_map.mp hl
    obtain ⟨x, hx, rfl⟩ := List.mem_map.mp hil
    cases hxe : x.data with
    | nil => exact absurd hxe (string_data_ne_nil x ((hwfg g hg).2 x hx).1)
    | cons a b => simp [hxe]
  rw [h3, ← List.map_flatten]
  exact map_mk_data _

theorem rstrip_joinSpace (ts : List (List Char))
    (h : ∀ t ∈ ts, t ≠ [] ∧ ∀ c ∈ t, isWs c = false) :
    rstripChars (joinSpace ts) = joinSpace ts := by
  induction ts with
  | nil => rfl
  | cons t ts' ih =>
    obtain ⟨htne, htc⟩ := h t (by simp)
    cases ts' with
    | nil =>
      show rstripChars t = t
      exact rstripChars_of_all_nonws t htc
    | cons u us =>
      obtain ⟨hune, _⟩ := h u (by simp)
      show rstripChars (t ++ ' ' :: joinSpace (u :: us)) = t ++ ' ' :: joinSpace (u :: us)
      have hsplit : t ++ ' ' :: joinSpace (u :: us)
          = (t ++ [' ']) ++ joinSpace (u :: us) := by
        simp
      rw [hsplit]
      exact rstripChars_keep _ _ (joinSpace_ne_nil u us (by
        intro hx
        exact hune hx)) (ih (fun x hx => h x (List.mem_cons_of_mem _ hx)))

theorem leftChars_all_syn (segs : List SynSeg) (h : ∀ s ∈ segs, wfSeg s) :
    ∀ c ∈ leftChars segs, isSynCh c = true := by
  unfold leftChars
  apply joinComma_forall
  · intro p hp c hc
    obtain ⟨s, hs, rfl⟩ := List.mem_map.mp hp
    cases s with
    | tok t =>
      have hwf := h (SynSeg.tok t) hs
      simp only [wfSeg, wfSynTok] at hwf
      exact synTokCh_is_syn (hwf.2 c (by simpa [segChars] using hc))
    | grp g =>
      have hwf := h (SynSeg.grp g) hs
      simp only [wfSeg] at hwf
      simp only [segChars, List.mem_cons] at hc
      rcases hc with rfl | hc2
      · decide
      rcases List.mem_append.mp hc2 with h3 | h4
      · refine @joinComma_forall (fun x => isSynCh x = true) (g.map String.data) ?_
          (by decide) c h3
        intro p hp c2 hc2
        obtain ⟨i, hi, rfl⟩ := List.mem_map.mp hp
        exact synTokCh_is_syn ((hwf.2 i hi).2 c2 hc2)
      · simp at h4
        subst h4
        decide
  · decide

/-- Full evaluation of the synopsis line parser on a rendered well-formed
line: left half = op token, plain tokens and bracket groups joined with
commas; right half = space-joined I/O tokens. -/
theorem parseSynopsisLine_eval (opName : String) (restSegs : List SynSeg) (ios : List String)
    (hop : wfSynTok opName) (hsegs : ∀ s ∈ restSegs, wfSeg s)
    (hios : ios ≠ []) (hiot : ∀ t ∈ ios, wfIoTok t) :
    parseSynopsisLine (mkSynLine (SynSeg.tok opName :: restSegs) ios).data =
      Except.ok (some
        { op := opName,
          required_params := segToks restSegs,
          optional_params := (segGrps (SynSeg.tok opName :: restSegs)).flatten,
          in_tokens := if 2 ≤ ios.length then ios.take (ios.length - 1) else ios,
          out_tokens := if 2 ≤ ios.length then ios.drop (ios.length - 1) else [],
          is_template := isSubstr operatorPlaceholder opName.data }) := by
  obtain ⟨c0, ct, hop0⟩ : ∃ c t, opName.data = c :: t := by
    cases hx : opName.data with
    | nil => exact absurd hx (string_data_ne_nil opName hop.1)
    | cons a b => exact ⟨a, b, rfl⟩
  have hallsegs : ∀ s ∈ SynSeg.tok opName :: restSegs, wfSeg s := by
    intro s hs
    rcases List.mem_cons.mp hs with rfl | h2
    · exact hop
    · exact hsegs s h2
  obtain ⟨i0, irest, rfl⟩ : ∃ i is, ios = i :: is := by
    cases ios with
    | nil => exact absurd rfl hios
    | cons a b => exact ⟨a, b, rfl⟩
  have hi0 := hiot i0 (by simp)
  obtain ⟨d0, dt, hi00⟩ : ∃ c t, i0.data = c :: t := by
    cases hx : i0.data with
    | nil => exact absurd hx (string_data_ne_nil i0 hi0.1)
    | cons a b => exact ⟨a, b, rfl⟩
  obtain ⟨tl, htl⟩ : ∃ tl, leftChars (SynSeg.tok opName :: restSegs) = opName.data ++ tl := by
    refine ⟨(match restSegs.map segChars with
      | [] => []
      | _ :: _ => ',' :: joinComma (restSegs.map segChars)), ?_⟩
    show joinComma (segChars (SynSeg.tok opName) :: restSegs.map segChars) = _
    rw [joinComma_cons_eq]
    rfl
  obtain ⟨tr, htr⟩ : ∃ tr, joinSpace ((i0 :: irest).map String.data) = i0.data ++ tr := by
    refine ⟨(match irest.map String.data with
      | [] => []
      | _ :: _ => ' ' :: joinSpace (irest.map String.data)), ?_⟩
    simp only [List.map_cons]
    rw [joinSpace_cons_eq]
  have hioswf : ∀ t ∈ (i0 :: irest).map String.data, t ≠ [] ∧ ∀ c ∈ t, isWs c = false := by
    intro t ht
    obtain ⟨x, hx, rfl⟩ := List.mem_map.mp ht
    exact ⟨string_data_ne_nil x (hiot x hx).1, (hiot x hx).2⟩
  have hRne : joinSpace ((i0 :: irest).map String.data) ≠ [] := by
    simp only [List.map_cons]
    exact joinSpace_ne_nil _ _ (string_data_ne_nil i0 hi0.1)
  have hc0 : isSynTokCh c0 = true := hop.2 c0 (by rw [hop0]; simp)
  have hcons : leftChars (SynSeg.tok opName :: restSegs)
        ++ ' ' :: joinSpace ((i0 :: irest).map String.data)
      = c0 :: (ct ++ tl ++ ' ' :: joinSpace ((i0 :: irest).map String.data)) := by
    rw [htl, hop0]
    simp [List.append_assoc]
  have hA1 : rstripChars (leftChars (SynSeg.tok opName :: restSegs)
        ++ ' ' :: joinSpace ((i0 :: irest).map String.data))
      = leftChars (SynSeg.tok opName :: restSegs)
        ++ ' ' :: joinSpace ((i0 :: irest).map String.data) := by
    rw [show leftChars (SynSeg.tok opName :: restSegs)
          ++ ' ' :: joinSpace ((i0 :: irest).map String.data)
        = (leftChars (SynSeg.tok opName :: restSegs) ++ [' '])
          ++ joinSpace ((i0 :: irest).map String.data) from by simp]
    exact rstripChars_keep _ _ hRne (rstrip_joinSpace _ hioswf)
  have hB1 : (leftChars (SynSeg.tok opName :: restSegs)
      ++ ' ' :: joinSpace ((i0 :: irest).map String.data)).isEmpty = false := by
    rw [hcons]
    rfl
  have hB2 : (leftChars (SynSeg.tok opName :: restSegs)
      ++ ' ' :: joinSpace ((i0 :: irest).map String.data)).head? = some c0 := by
    rw [hcons]
    rfl
  have hB3 : dropLeadWs (leftChars (SynSeg.tok opName :: restSegs)
        ++ ' ' :: joinSpace ((i0 :: irest).map String.data))
      = leftChars (SynSeg.tok opName :: restSegs)
        ++ ' ' :: joinSpace ((i0 :: irest).map String.data) := by
    rw [hcons]
    exact dropWhile_cons_neg _ _ _ (synTokCh_not_ws hc0)
  have hB4 : (leftChars (SynSeg.tok opName :: restSegs)
        ++ ' ' :: joinSpace ((i0 :: irest).map String.data)).takeWhile isSynCh
      = leftChars (SynSeg.tok opName :: restSegs) := by
    rw [takeWhile_all_append _ _ _ (leftChars_all_syn _ hallsegs),
      takeWhile_cons_neg _ _ _ (by decide)]
    simp
  have hB5 : (leftChars (SynSeg.tok opName :: restSegs)
        ++ ' ' :: joinSpace ((i0 :: irest).map String.data)).dropWhile isSynCh
      = ' ' :: joinSpace ((i0 :: irest).map String.data) := by
    rw [dropWhile_all_append _ _ _ (leftChars_all_syn _ hallsegs)]
    exact dropWhile_cons_neg _ _ _ (by decide)
  have hB6 : (leftChars (SynSeg.tok opName :: restSegs)).isEmpty = false := by
    rw [htl, hop0]
    rfl
  have hB7 : ((' ' :: joinSpace ((i0 :: irest).map String.data)).takeWhile isWs).isEmpty
      = false := by
    simp [List.takeWhile_cons, show isWs ' ' = true from rfl]
  have hB8 : (' ' :: joinSpace ((i0 :: irest).map String.data)).dropWhile isWs
      = joinSpace ((i0 :: irest).map String.data) := by
    rw [List.dropWhile_cons]
    simp only [show isWs ' ' = true from rfl, if_true]
    rw [htr, hi00]
    exact dropWhile_cons_neg _ _ _ (hi0.2 d0 (by rw [hi00]; simp))
  have hB9 : (joinSpace ((i0 :: irest).map String.data)).isEmpty = false := by
    rw [htr, hi00]
    rfl
  have hB10 := bracketAux_leftChars (SynSeg.tok opName :: restSegs) hallsegs
  have hB11 : (splitOnComma
        (joinComma ((SynSeg.tok opName :: restSegs).map segRem))).filter
        (fun p => !p.isEmpty)
      = opName.data :: (segToks restSegs).map String.data := by
    rw [splitOnComma_joinComma _ (by simp) ?_]
    · rw [filter_segRem _ hallsegs]
      simp [segToks, List.filterMap_cons]
    · intro p hp c hc
      obtain ⟨s, hs, rfl⟩ := List.mem_map.mp hp
      cases s with
      | tok t =>
        have hwf := hallsegs (SynSeg.tok t) hs
        simp only [wfSeg, wfSynTok] at hwf
        exact synTokCh_ne_comma (hwf.2 c (by simpa [segRem] using hc))
      | grp g => simp [segRem] at hc
  have hB12 := opt_eval (SynSeg.tok opName :: restSegs) hallsegs
  have hB13 : wsSplit (joinSpace ((i0 :: irest).map String.data))
      = (i0 :: irest).map String.data := wsSplit_joinSpace _ hioswf
  have hdata : (mkSynLine (SynSeg.tok opName :: restSegs) (i0 :: irest)).data
      = leftChars (SynSeg.tok opName :: restSegs)
        ++ ' ' :: joinSpace ((i0 :: irest).map String.data) := rfl
  have hIn : ((if 2 ≤ ((i0 :: irest).map String.data).length
        then ((i0 :: irest).map String.data).take (((i0 :: irest).map String.data).length - 1)
        else (i0 :: irest).map String.data).map String.mk)
      = (if 2 ≤ (i0 :: irest).length then (i0 :: irest).take ((i0 :: irest).length - 1)
         else (i0 :: irest)) := by
    simp only [List.length_map]
    by_cases hlen : 2 ≤ (i0 :: irest).length
    · simp only [hlen, if_true, ← List.map_take]
      exact map_mk_data _
    · simp only [hlen, if_false]
      exact map_mk_data _
  have hOut : ((if 2 ≤ ((i0 :: irest).map String.data).length
        then ((i0 :: irest).map String.data).drop (((i0 :: irest).map String.data).length - 1)
        else ([] : List (List Char))).map String.mk)
      = (if 2 ≤ (i0 :: irest).length then (i0 :: irest).drop ((i0 :: irest).length - 1)
         else []) := by
    simp only [List.length_map]
    by_cases hlen : 2 ≤ (i0 :: irest).length
    · simp only [hlen, if_true, ← List.map_drop]
      exact map_mk_data _
    · simp only [hlen, if_false]
      rfl
  rw [hdata]
  unfold parseSynopsisLine
  simp only [hA1, hB1, hB2, hB3, hB4, hB5, hB6, hB7, hB8, hB9, hB10, hB11, hB12, hB13,
    Bool.false_eq_true, if_false, Option.some.injEq]
  rw [if_neg (synTokCh_ne_hash hc0)]
  simp only [hIn, hOut, string_mk_data, map_mk_data]

/-- `isSubstr` decides list-infix containment, i.e. the Python `in` test. -/
theorem isSubstr_iff_infix (p l : List Char) : isSubstr p l = true ↔ List.IsInfix p l := by
  induction l with
  | nil =>
    simp only [isSubstr, List.isEmpty_iff, List.infix_nil]
  | cons c rest ih =>
    simp only [isSubstr, Bool.or_eq_true]
    exact (or_congr List.isPrefixOf_iff_prefix ih).trans List.infix_cons_iff.symm

/-- A spec produced by the synopsis line parser has its `is_template` flag
equal to the substring test of its own operator token. -/
theorem parseSynopsisLine_template (raw : List Char) (s : CallSpec)
    (h : parseSynopsisLine raw = Except.ok (some s)) :
    s.is_template = isSubstr operatorPlaceholder s.op.data := by
  unfold parseSynopsisLine at h
  dsimp only [] at h
  repeat' split at h
  all_goals try exact Except.noConfusion h
  all_goals injection h with h2
  all_goals try exact Option.noConfusion h2
  all_goals injection h2 with h3
  all_goals subst h3
  all_goals rfl

/-- Specs produced by the synopsis block parser, one by one. -/
theorem parseSynopsisBlock_mem (lines : List String) (specs : List CallSpec)
    (h : parseSynopsisBlock lines = Except.ok specs) :
    ∀ s ∈ specs, ∃ raw : List Char, parseSynopsisLine raw = Except.ok (some s) := by
  induction lines generalizing specs with
  | nil =>
    simp only [parseSynopsisBlock, Except.ok.injEq] at h
    subst h
    intro s hs
    cases hs
  | cons l ls ih =>
    simp only [parseSynopsisBlock] at h
    cases hl : parseSynopsisLine l.data with
    | error e => rw [hl] at h; cases h
    | ok o =>
      cases o with
      | none =>
        rw [hl] at h
        exact ih specs h
      | some s0 =>
        rw [hl] at h
        cases hr : parseSynopsisBlock ls with
        | error e => rw [hr] at h; cases h
        | ok rest =>
          rw [hr] at h
          simp only [Except.ok.injEq] at h
          subst h
          intro s hs
          rcases List.mem_cons.mp hs with rfl | hmem
          · exact ⟨l.data, hl⟩
          · exact ih rest hr s hmem

/-- **C2 (amended)**: for every parsed synopsis line, the resulting spec's
`isTemplate` flag is true exactly when the operator token *contains* the
literal `<operator>` as a substring (the source tests
`'<operator>' in op_name`), not when it equals it. -/
theorem is_template_contains_correct :
    ∀ (lines : List String) (specs : List CallSpec),
      parseSynopsisBlock lines = Except.ok specs →
      ∀ s ∈ specs, (s.is_template = true ↔ List.IsInfix operatorPlaceholder s.op.data) := by
  intro lines specs h s hs
  obtain ⟨raw, hraw⟩ := parseSynopsisBlock_mem lines specs h s hs
  rw [parseSynopsisLine_template raw s hraw]
  exact isSubstr_iff_infix _ _

/-- Witness for the amended C2, at a concrete parsed line. -/
theorem is_template_contains_correct_witness :
    (({ op := "x<operator>", required_params := [], optional_params := [],
        in_tokens := ["in"], out_tokens := [], is_template := true } : CallSpec).is_template = true
      ↔ List.IsInfix operatorPlaceholder ("x<operator>" : String).data) :=
  is_template_contains_correct ["x<operator> in"]
    [{ op := "x<operator>", required_params := [], optional_params := [],
       in_tokens := ["in"], out_tokens := [], is_template := true }] rfl _ (by simp)

/-- **C2, counterexample to the claim as stated**: the synopsis line
`x<operator> in` parses to a spec whose operator token is `x<operator>`,
which differs from the literal `<operator>`, yet `isTemplate` is true —
so `isTemplate` is not true *only* for the exact placeholder token. -/
theorem is_template_equality_counterexample :
    parseSynopsisBlock ["x<operator> in"] = Except.ok
      [{ op := "x<operator>", required_params := [], optional_params := [],
         in_tokens := ["in"], out_tokens := [], is_template := true }]
    ∧ ("x<operator>" : String) ≠ "<operator>" :=
  ⟨rfl, by decide⟩

theorem rstrip_nil_all_ws (l : List Char) (h : rstripChars l = []) :
    ∀ c ∈ l, isWs c = true := by
  unfold rstripChars at h
  have h2 : l.reverse.dropWhile isWs = [] := by
    have := congrArg List.reverse h
    simpa using this
  rw [List.dropWhile_eq_nil_iff] at h2
  intro c hc
  exact h2 c (by simpa using hc)

theorem all_ws_rstrip_nil (l : List Char) (h : ∀ c ∈ l, isWs c = true) :
    rstripChars l = [] := by
  unfold rstripChars
  rw [dropWhile_all_eq_nil isWs l.reverse (fun c hc => h c (by simpa using hc))]
  rfl

theorem blank_all_ws (l : List Char) (h : stripChars l = []) : ∀ c ∈ l, isWs c = true := by
  unfold stripChars at h
  have hrest := rstrip_nil_all_ws _ h
  intro c hc
  have hsplit : c ∈ l.takeWhile isWs ++ l.dropWhile isWs := by
    rw [List.takeWhile_append_dropWhile]
    exact hc
  rcases List.mem_append.mp hsplit with h1 | h2
  · exact List.mem_takeWhile_imp h1
  · exact hrest c h2

/-- A blank line's continuation transform is the empty string, matching the
`""` the blank branch appends. -/
theorem contLine_of_blank (l : String) (h : isBlankLine l = true) : contLine l = "" := by
  unfold isBlankLine at h
  rw [List.isEmpty_iff] at h
  have hall := blank_all_ws _ h
  unfold contLine
  rw [all_ws_rstrip_nil _ hall]
  rfl

/-- Evaluation of `OPER_LINE_RE.match` on a well-formed header line. -/
theorem matchOperLine_eval (name short : List Char)
    (hn : name ≠ []) (hnc : ∀ c ∈ name, isWordCh c = true)
    (hs : short ≠ []) (hss : stripChars short = short) :
    matchOperLine (String.mk (name ++ ' ' :: ' ' :: short)) =
      some (String.mk name, String.mk short) := by
  obtain ⟨n0, nt, rfl⟩ : ∃ c t, name = c :: t := by
    cases name with
    | nil => exact absurd rfl hn
    | cons a b => exact ⟨a, b, rfl⟩
  obtain ⟨s0, st, rfl⟩ : ∃ c t, short = c :: t := by
    cases short with
    | nil => exact absurd rfl hs
    | cons a b => exact ⟨a, b, rfl⟩
  obtain ⟨hdl, hdr⟩ := strip_id_parts _ (by simp) hss
  have hs0 : isWs s0 = false := by
    cases hw : isWs s0 with
    | false => rfl
    | true =>
      unfold dropLeadWs at hdl
      rw [List.dropWhile_cons, hw] at hdl
      simp at hdl
      have := dropWhile_length_le isWs st
      have := congrArg List.length hdl
      simp at this
      omega
  have e0 : dropLeadWs ((n0 :: nt) ++ ' ' :: ' ' :: (s0 :: st))
      = (n0 :: nt) ++ ' ' :: ' ' :: (s0 :: st) :=
    dropWhile_cons_neg _ _ _ (wordCh_not_ws (hnc n0 (by simp)))
  have e1 : ((n0 :: nt) ++ ' ' :: ' ' :: (s0 :: st)).takeWhile isWordCh = n0 :: nt := by
    rw [takeWhile_all_append _ _ _ hnc, takeWhile_cons_neg _ _ _ (by decide)]
    simp
  have e2 : ((n0 :: nt) ++ ' ' :: ' ' :: (s0 :: st)).dropWhile isWordCh
      = ' ' :: ' ' :: (s0 :: st) := by
    rw [dropWhile_all_append _ _ _ hnc]
    exact dropWhile_cons_neg _ _ _ (by decide)
  have e3 : (' ' :: ' ' :: (s0 :: st)).takeWhile isWs = [' ', ' '] := by
    simp [List.takeWhile_cons, show isWs ' ' = true from rfl, hs0]
  have e4 : (' ' :: ' ' :: (s0 :: st)).dropWhile isWs = s0 :: st := by
    simp [List.dropWhile_cons, show isWs ' ' = true from rfl, hs0]
  unfold matchOperLine
  simp only [show (String.mk ((n0 :: nt) ++ ' ' :: ' ' :: (s0 :: st))).data
    = (n0 :: nt) ++ ' ' :: ' ' :: (s0 :: st) from rfl]
  simp only [e0, e1, e2, e3, e4]
  simp only [List.isEmpty_cons, Bool.false_eq_true, if_false, hdr]
  norm_num
  exact congrArg String.mk hss

/-- A well-formed header line is not blank. -/
theorem operHeader_not_blank (name short : List Char)
    (hn : name ≠ []) (hnc : ∀ c ∈ name, isWordCh c = true) :
    isBlankLine (String.mk (name ++ ' ' :: ' ' :: short)) = false := by
  cases hb : isBlankLine (String.mk (name ++ ' ' :: ' ' :: short)) with
  | false => rfl
  | true =>
    exfalso
    unfold isBlankLine at hb
    rw [List.isEmpty_iff] at hb
    have hall := blank_all_ws _ hb
    obtain ⟨n0, nt, rfl⟩ : ∃ c t, name = c :: t := by
      cases name with
      | nil => exact absurd rfl hn
      | cons a b => exact ⟨a, b, rfl⟩
    have := hall n0 (by simp)
    rw [wordCh_not_ws (hnc n0 (by simp))] at this
    cases this

/-- Lines before the first header line are dropped. -/
theorem opDocsGo_pre (pre rest : List String) (h : ∀ l ∈ pre, matchOperLine l = none) :
    opDocsGo (pre ++ rest) none = opDocsGo rest none := by
  induction pre with
  | nil => rfl
  | cons l pre' ih =>
    have hl : matchOperLine l = none := h l (by simp)
    by_cases hb : isBlankLine l = true
    · simp only [List.cons_append, opDocsGo, hb, if_true, Option.map_none']
      exact ih (fun x hx => h x (List.mem_cons_of_mem _ hx))
    · have hb' : isBlankLine l = false := by simpa using hb
      simp only [List.cons_append, opDocsGo, hb', Bool.false_eq_true, if_false, hl,
        Option.map_none']
      exact ih (fun x hx => h x (List.mem_cons_of_mem _ hx))

/-- Continuation lines accumulate on the open entry, blank lines as `""`
(without terminating it) and other non-matching lines via `contLine`. -/
theorem opDocsGo_conts (conts : List String) (rest : List String) (d : OpDoc)
    (h : ∀ l ∈ conts, matchOperLine l = none) :
    opDocsGo (conts ++ rest) (some d) =
      opDocsGo rest (some { d with long_lines := d.long_lines ++ conts.map contLine }) := by
  induction conts generalizing d with
  | nil => simp
  | cons l ls ih =>
    have hl : matchOperLine l = none := h l (by simp)
    by_cases hb : isBlankLine l = true
    · simp only [List.cons_append, opDocsGo, hb, if_true, Option.map_some', List.append_eq]
      rw [ih _ (fun x hx => h x (List.mem_cons_of_mem _ hx))]
      simp [contLine_of_blank l hb, List.append_assoc]
    · have hb' : isBlankLine l = false := by simpa using hb
      simp only [List.cons_append, opDocsGo, hb', Bool.false_eq_true, if_false, hl,
        Option.map_some', List.append_eq]
      rw [ih _ (fun x hx => h x (List.mem_cons_of_mem _ hx))]
      simp [List.append_assoc]

/-- The scan over rendered chunks produces exactly one committed entry per
chunk, in order. -/
theorem opDocsGo_chunks (chunks : List (String × String × List String)) (d : Option OpDoc)
    (h : ∀ c ∈ chunks, c.1 ≠ "" ∧ (∀ ch ∈ c.1.data, isWordCh ch = true)
      ∧ c.2.1 ≠ "" ∧ stripChars c.2.1.data = c.2.1.data
      ∧ (∀ l ∈ c.2.2, matchOperLine l = none)) :
    opDocsGo (chunks.flatMap operChunkLines) d = emitOpt d ++ chunks.map operChunkEntry := by
  induction chunks generalizing d with
  | nil => simp [opDocsGo]
  | cons c rest ih =>
    obtain ⟨h1, h2, h3, h4, h5⟩ := h c (by simp)
    have hn : c.1.data ≠ [] := by
      intro hx
      exact h1 (by rw [← string_mk_data c.1, hx])
    have hs : c.2.1.data ≠ [] := by
      intro hx
      exact h3 (by rw [← string_mk_data c.2.1, hx])
    have hm := matchOperLine_eval c.1.data c.2.1.data hn h2 hs h4
    rw [string_mk_data, string_mk_data] at hm
    have hnb := operHeader_not_blank c.1.data c.2.1.data hn h2
    simp only [List.flatMap_cons, operChunkLines, List.cons_append, List.append_assoc]
    simp only [opDocsGo, hnb, Bool.false_eq_true, if_false, hm]
    rw [opDocsGo_conts c.2.2 _ _ h5]
    rw [ih _ (fun x hx => h x (List.mem_cons_of_mem _ hx))]
    simp [emitOpt, operChunkEntry]

/-- Filtering a mapped entry list by key commutes with filtering the
sources, when the map preserves the key. -/
theorem filter_map_key {α β : Type} (f : α → String × β) (key : α → String)
    (hk : ∀ a, (f a).1 = key a) (l : List α) (nm : String) :
    (l.map f).filter (fun e => e.1 == nm) = (l.filter (fun a => key a == nm)).map f := by
  induction l with
  | nil => rfl
  | cons a rest ih =>
    simp only [List.map_cons, List.filter_cons, hk a]
    by_cases h : (key a == nm) = true
    · simp [h, ih]
    · have h' : (key a == nm) = false := by simpa using h
      simp [h', ih]

/-- Python `dict` lookup over the committed entry list: the last entry with
the key wins. -/
theorem sget_filter_getLast {α : Type} (d : List (String × α)) (k : String) :
    sget d k = ((d.filter (fun e => e.1 == k)).getLast?).map (fun e => e.2) := by
  induction d with
  | nil => rfl
  | cons e rest ih =>
    simp only [sget, ih, List.filter_cons]
    by_cases hk : e.1 = k
    · simp only [hk, beq_self_eq_true, if_true]
      cases hl : (rest.filter (fun x => x.1 == k)).getLast? with
      | none =>
        simp only [Option.map_none']
        rw [List.getLast?_cons, hl]
        simp [hk]
      | some y =>
        simp only [Option.map_some']
        rw [List.getLast?_cons, hl]
        simp
    · have hk' : (e.1 == k) = false := by simpa using hk
      simp only [hk', Bool.false_eq_true, if_false]
      cases hl : (rest.filter (fun x => x.1 == k)).getLast? with
      | none => simp [hk]
      | some y => simp

/-- **C7**: in the Operator-Doc Parser, a line matching
`NAME␣␣SHORT-DESCRIPTION` starts a new entry keyed by NAME with `short` the
trimmed remainder; every non-matching line after it (blank lines as empty
continuation lines — they do not terminate the entry — and other lines
stripped of up to 8 leading whitespace characters and of trailing
whitespace) lands in that entry's `longLines`; lines before any header line
are dropped; and when the same NAME occurs twice the last occurrence's
entry wins in the keyed table. -/
theorem operators_section_parse_correct :
    ∀ (pre : List String) (chunks : List (String × String × List String)),
      (∀ l ∈ pre, matchOperLine l = none) →
      (∀ c ∈ chunks, c.1 ≠ "" ∧ (∀ ch ∈ c.1.data, isWordCh ch = true)
        ∧ c.2.1 ≠ "" ∧ stripChars c.2.1.data = c.2.1.data
        ∧ (∀ l ∈ c.2.2, matchOperLine l = none)) →
      parseOperatorsSection (pre ++ chunks.flatMap operChunkLines) =
          chunks.map operChunkEntry
      ∧ (∀ nm : String,
          sget (parseOperatorsSection (pre ++ chunks.flatMap operChunkLines)) nm =
            ((chunks.filter (fun c => c.1 == nm)).getLast?).map
              (fun c => (operChunkEntry c).2)) := by
  intro pre chunks hpre hchunks
  have hmain : parseOperatorsSection (pre ++ chunks.flatMap operChunkLines) =
      chunks.map operChunkEntry := by
    unfold parseOperatorsSection
    rw [opDocsGo_pre pre _ hpre]
    rw [opDocsGo_chunks chunks none hchunks]
    rfl
  refine ⟨hmain, ?_⟩
  intro nm
  rw [hmain, sget_filter_getLast]
  rw [filter_map_key operChunkEntry (fun c => c.1) (fun _ => rfl) chunks nm, List.getLast?_map]
  cases (chunks.filter (fun c => c.1 == nm)).getLast? with
  | none => rfl
  | some c => rfl

/-- Witness for C7: one dropped pre-line, two chunks with the same name
(last wins) and one distinct chunk, with blank and indented continuations. -/
theorem operators_section_parse_correct_witness :
    parseOperatorsSection (["dropped line"] ++
        ([("sinfo", "first short", ["   long a", ""]),
          ("sinfon", "other", []),
          ("sinfo", "second short", ["  long b"])].flatMap operChunkLines)) =
      [("sinfo", { name := "sinfo", short := "first short", long_lines := ["long a", ""] }),
       ("sinfon", { name := "sinfon", short := "other", long_lines := [] }),
       ("sinfo", { name := "sinfo", short := "second short", long_lines := ["long b"] })]
    ∧ sget (parseOperatorsSection (["dropped line"] ++
        ([("sinfo", "first short", ["   long a", ""]),
          ("sinfon", "other", []),
          ("sinfo", "second short", ["  long b"])].flatMap operChunkLines))) "sinfo" =
      some { name := "sinfo", short := "second short", long_lines := ["long b"] } := by
  have h := operators_section_parse_correct ["dropped line"]
    [("sinfo", "first short", ["   long a", ""]),
     ("sinfon", "other", []),
     ("sinfo", "second short", ["  long b"])]
    (by intro l hl; simp at hl; subst hl; rfl)
    (by decide)
  refine ⟨h.1.trans (by rfl), (h.2 "sinfo").trans (by rfl)⟩

/-- Each of the six tokens, alone on a line, is found as itself. -/
theorem findHeader_token (h : String) (hmem : h ∈ helpHeaders) : findHeader h = some h := by
  simp only [helpHeaders, List.mem_cons, List.not_mem_nil, or_false] at hmem
  rcases hmem with rfl | rfl | rfl | rfl | rfl | rfl <;> rfl

/-- Lines before the first header line contribute to no section. -/
theorem sectionsAux_pre (pre rest : List String) (h : ∀ l ∈ pre, findHeader l = none) :
    sectionsAux (pre ++ rest) none = sectionsAux rest none := by
  induction pre with
  | nil => rfl
  | cons l pre' ih =>
    have hl : findHeader l = none := h l (by simp)
    simp only [List.cons_append, sectionsAux, hl]
    exact ih (fun x hx => h x (List.mem_cons_of_mem _ hx))

/-- Non-header lines accumulate (reversed) on the open span. -/
theorem sectionsAux_body (body rest : List String) (hd : String × List String)
    (h : ∀ l ∈ body, findHeader l = none) :
    sectionsAux (body ++ rest) (some hd) =
      sectionsAux rest (some (hd.1, body.reverse ++ hd.2)) := by
  induction body generalizing hd with
  | nil => simp
  | cons l ls ih =>
    have hl : findHeader l = none := h l (by simp)
    simp only [List.cons_append, sectionsAux, hl, List.append_eq]
    rw [ih (hd.1, l :: hd.2) (fun x hx => h x (List.mem_cons_of_mem _ hx))]
    simp [List.append_assoc]

/-- The scan over rendered header/body chunks. -/
theorem sectionsAux_chunks (chunks : List (String × List String))
    (cur : Option (String × List String))
    (h : ∀ c ∈ chunks, c.1 ∈ helpHeaders ∧ ∀ l ∈ c.2, findHeader l = none) :
    sectionsAux (chunks.flatMap (fun c => c.1 :: c.2)) cur =
      emitSec cur ++ chunks.map (fun c => (c.1, trimBody c.2)) := by
  induction chunks generalizing cur with
  | nil => simp [sectionsAux]
  | cons c rest ih =>
    obtain ⟨h1, h2⟩ := h c (by simp)
    simp only [List.flatMap_cons, List.cons_append, List.append_assoc]
    simp only [sectionsAux, findHeader_token c.1 h1]
    rw [show c.2 ++ rest.flatMap (fun c => c.1 :: c.2)
      = c.2 ++ rest.flatMap (fun c => c.1 :: c.2) from rfl]
    rw [sectionsAux_body c.2 _ (c.1, []) h2]
    rw [ih _ (fun x hx => h x (List.mem_cons_of_mem _ hx))]
    simp [emitSec]

/-- **C6**: the Section Splitter recognizes exactly the six header tokens
NAME, SYNOPSIS, DESCRIPTION, OPERATORS, PARAMETER, ENVIRONMENT, and only on
a line that is such a token (case-sensitive) followed by whitespace only;
each present header's section is the span of lines from that header line to
the next header line (or the end), with the leading whitespace-only lines
and trailing empty lines trimmed; absent headers yield no entry, and when a
header occurs more than once the last occurrence's span wins in the keyed
section map. -/
theorem split_sections_correct :
    (∀ (line hd : String), findHeader line = some hd →
       hd ∈ helpHeaders ∧ ∃ t : List Char, line.data = hd.data ++ t ∧ ∀ c ∈ t, isWs c = true)
    ∧ (∀ (hd : String) (t : List Char), hd ∈ helpHeaders → (∀ c ∈ t, isWs c = true) →
       (findHeader (String.mk (hd.data ++ t))).isSome = true)
    ∧ (∀ (pre : List String) (chunks : List (String × List String)),
        (∀ l ∈ pre, findHeader l = none) →
        (∀ c ∈ chunks, c.1 ∈ helpHeaders ∧ ∀ l ∈ c.2, findHeader l = none) →
        splitSections (pre ++ chunks.flatMap (fun c => c.1 :: c.2)) =
            chunks.map (fun c => (c.1, trimBody c.2))
        ∧ ∀ hd : String,
            sget (splitSections (pre ++ chunks.flatMap (fun c => c.1 :: c.2))) hd =
              ((chunks.filter (fun c => c.1 == hd)).getLast?).map (fun c => trimBody c.2)) := by
  refine ⟨?_, ?_, ?_⟩
  · intro line hd hfind
    unfold findHeader at hfind
    have hmem : hd ∈ helpHeaders := List.mem_of_find?_eq_some hfind
    have hmatch : headerMatch hd line = true := by
      have h2 := List.find?_some hfind
      exact h2
    unfold headerMatch at hmatch
    rw [Bool.and_eq_true] at hmatch
    obtain ⟨hp, hall⟩ := hmatch
    rw [List.isPrefixOf_iff_prefix] at hp
    obtain ⟨t, ht⟩ := hp
    refine ⟨hmem, t, ht.symm, ?_⟩
    have hdrop : line.data.drop hd.data.length = t := by
      rw [← ht, List.drop_left]
    rw [hdrop] at hall
    intro c hc
    exact List.all_eq_true.mp hall c hc
  · intro hd t hmem hws
    have hmatch : headerMatch hd (String.mk (hd.data ++ t)) = true := by
      unfold headerMatch
      rw [Bool.and_eq_true]
      constructor
      · rw [List.isPrefixOf_iff_prefix]
        exact ⟨t, rfl⟩
      · rw [show (String.mk (hd.data ++ t)).data = hd.data ++ t from rfl, List.drop_left]
        rw [List.all_eq_true]
        exact hws
    unfold findHeader
    rw [Option.isSome_iff_exists]
    have : ∃ x ∈ helpHeaders, headerMatch x (String.mk (hd.data ++ t)) = true :=
      ⟨hd, hmem, hmatch⟩
    obtain ⟨x, hfind⟩ := List.find?_isSome.mpr this |> Option.isSome_iff_exists.mp
    exact ⟨x, hfind⟩
  · intro pre chunks hpre hchunks
    have hmain : splitSections (pre ++ chunks.flatMap (fun c => c.1 :: c.2)) =
        chunks.map (fun c => (c.1, trimBody c.2)) := by
      unfold splitSections
      rw [sectionsAux_pre pre _ hpre]
      rw [sectionsAux_chunks chunks none hchunks]
      rfl
    refine ⟨hmain, ?_⟩
    intro hd
    rw [hmain, sget_filter_getLast]
    rw [filter_map_key (fun c => (c.1, trimBody c.2)) (fun c => c.1) (fun _ => rfl) chunks hd,
      List.getLast?_map]
    cases (chunks.filter (fun c => c.1 == hd)).getLast? with
    | none => rfl
    | some c => rfl

/-- Witness for C6: recognition of `SYNOPSIS` with trailing blanks, and the
span/trimming/last-wins behaviour on a concrete page with a repeated NAME
header, trailing blank lines and an absent header. -/
theorem split_sections_correct_witness :
    ((findHeader (String.mk (("SYNOPSIS" : String).data ++ [' ', '\t']))).isSome = true)
    ∧ splitSections (["preamble"] ++
        ([("NAME", ["  ", "first", ""]), ("SYNOPSIS", ["  body line"]),
          ("NAME", ["second"])].flatMap (fun c => c.1 :: c.2))) =
        [("NAME", ["first"]), ("SYNOPSIS", ["  body line"]), ("NAME", ["second"])]
    ∧ sget (splitSections (["preamble"] ++
        ([("NAME", ["  ", "first", ""]), ("SYNOPSIS", ["  body line"]),
          ("NAME", ["second"])].flatMap (fun c => c.1 :: c.2)))) "NAME" = some ["second"]
    ∧ sget (splitSections (["preamble"] ++
        ([("NAME", ["  ", "first", ""]), ("SYNOPSIS", ["  body line"]),
          ("NAME", ["second"])].flatMap (fun c => c.1 :: c.2)))) "PARAMETER" = none := by
  have h := split_sections_correct.2.2 ["preamble"]
    [("NAME", ["  ", "first", ""]), ("SYNOPSIS", ["  body line"]), ("NAME", ["second"])]
    (by intro l hl; simp at hl; subst hl; rfl)
    (by decide)
  refine ⟨?_, h.1.trans (by rfl), (h.2 "NAME").trans (by rfl), (h.2 "PARAMETER").trans (by rfl)⟩
  exact split_sections_correct.2.1 "SYNOPSIS" [' ', '\t'] (by decide) (by decide)

/-- **C10**: text preceding the first recognized section header belongs to
no section; a help text with no header line at all yields an empty section
map, and consequently the whole page yields zero CallSpecs. -/
theorem preamble_discarded_no_headers_no_specs :
    (∀ (pre lines : List String), (∀ l ∈ pre, findHeader l = none) →
        splitSections (pre ++ lines) = splitSections lines)
    ∧ (∀ lines : List String, (∀ l ∈ lines, findHeader l = none) →
        splitSections lines = [] ∧ pageSpecs lines = Except.ok []) := by
  constructor
  · intro pre lines hpre
    unfold splitSections
    exact sectionsAux_pre pre lines hpre
  · intro lines hlines
    have h0 : splitSections lines = [] := by
      have := sectionsAux_pre lines [] hlines
      unfold splitSections
      rw [← List.append_nil lines]
      exact this
    constructor
    · exact h0
    · unfold pageSpecs
      rw [h0]
      rfl

/-- Witness for C10: a concrete headerless page is discarded whole. -/
theorem preamble_discarded_no_headers_no_specs_witness :
    splitSections (["some text", "more text"] ++ ["NAME", "body"]) =
      splitSections ["NAME", "body"]
    ∧ splitSections ["no headers", "anywhere"] = []
    ∧ pageSpecs ["no headers", "anywhere"] = Except.ok [] := by
  have h2 := preamble_discarded_no_headers_no_specs.2 ["no headers", "anywhere"]
    (by decide)
  refine ⟨?_, h2.1, h2.2⟩
  exact preamble_discarded_no_headers_no_specs.1 ["some text", "more text"] ["NAME", "body"]
    (by decide)

/-- **C8**: the Parameter-Block Parser maps a line of the form
`NAME␣TYPE-TOKEN␣␣DESCRIPTION` — name a nonempty identifier of word
characters, type token a nonempty run of uppercase letters, description
nonempty after trimming — to the entry `(name, lookup(type), trimmed
description)`; the eight type tokens map through the fixed table; any other
token defaults to the string type rather than failing; and a line the regex
does not match is skipped, producing no entry. -/
theorem parameter_block_parse_correct :
    (∀ (name typ desc : String),
       name ≠ "" → (∀ c ∈ name.data, isWordCh c = true) →
       typ ≠ "" → (∀ c ∈ typ.data, isUpperCh c = true) →
       desc ≠ "" → stripChars desc.data = desc.data →
       parseParamBlock [String.mk (name.data ++ ' ' :: (typ.data ++ ' ' :: ' ' :: desc.data))] =
         [(name, typeLookup typ, desc)])
    ∧ (∀ line : String, matchParamLine line = none → parseParamBlock [line] = [])
    ∧ (typeLookup "STRING" = "str" ∧ typeLookup "BOOL" = "bool"
        ∧ typeLookup "BOOLEAN" = "bool" ∧ typeLookup "INT" = "int"
        ∧ typeLookup "INTEGER" = "int" ∧ typeLookup "FLOAT" = "float"
        ∧ typeLookup "DOUBLE" = "float" ∧ typeLookup "NUM" = "float")
    ∧ (∀ t : String,
        t ∉ ["STRING", "BOOL", "BOOLEAN", "INT", "INTEGER", "FLOAT", "DOUBLE", "NUM"] →
        typeLookup t = "str") := by
  refine ⟨?_, ?_, ⟨rfl, rfl, rfl, rfl, rfl, rfl, rfl, rfl⟩, ?_⟩
  · intro name typ desc h1 h2 h3 h4 h5 h6
    have hn : name.data ≠ [] := by
      intro hx
      exact h1 (by rw [← string_mk_data name, hx])
    have ht : typ.data ≠ [] := by
      intro hx
      exact h3 (by rw [← string_mk_data typ, hx])
    have hd : desc.data ≠ [] := by
      intro hx
      exact h5 (by rw [← string_mk_data desc, hx])
    have hm := matchParamLine_eval name.data typ.data desc.data hn h2 ht h4 hd h6
    rw [string_mk_data, string_mk_data, string_mk_data] at hm
    simp only [parseParamBlock, hm]
  · intro line h
    simp only [parseParamBlock, h]
  · intro t ht
    simp only [List.mem_cons, not_or] at ht
    obtain ⟨n1, n2, n3, n4, n5, n6, n7, n8, _⟩ := ht
    simp only [typeLookup, if_neg n1, if_neg n2, if_neg n3, if_neg n4, if_neg n5, if_neg n6,
      if_neg n7, if_neg n8]

/-- Witness for C8: the general parts applied at the concrete line
`eps FLOAT  epsilon value`, at a non-matching line, and at the unknown type
token `QQQ`. -/
theorem parameter_block_parse_correct_witness :
    parseParamBlock [String.mk (("eps" : String).data
        ++ ' ' :: (("FLOAT" : String).data ++ ' ' :: ' ' :: ("epsilon value" : String).data))] =
      [("eps", typeLookup "FLOAT", "epsilon value")]
    ∧ parseParamBlock ["no param here"] = []
    ∧ typeLookup "QQQ" = "str" := by
  refine ⟨?_, ?_, ?_⟩
  · exact parameter_block_parse_correct.1 "eps" "FLOAT" "epsilon value" (by decide) (by decide)
      (by decide) (by decide) (by decide) (by decide)
  · exact parameter_block_parse_correct.2.1 "no param here" (by decide)
  · exact parameter_block_parse_correct.2.2.2 "QQQ" (by decide)

/-- **C9**: the Process Invoker returns the child's captured standard output
exactly when the process exits zero, and fails with an error carrying the
captured standard error text exactly when it exits non-zero — for any
behaviour `sub` of the external child process and any argument shapes. -/
theorem invoker_contract :
    ∀ (sub : List String → ProcOutput) (operator inputs output options : StrArg),
      (run sub operator inputs output options =
          Except.ok (sub (["cdo"] ++ options.norm ++ operator.norm ++ inputs.norm
            ++ output.norm)).stdout
        ↔ (sub (["cdo"] ++ options.norm ++ operator.norm ++ inputs.norm
            ++ output.norm)).returncode = 0)
      ∧ (∀ e, run sub operator inputs output options = Except.error e
          ↔ ((sub (["cdo"] ++ options.norm ++ operator.norm ++ inputs.norm
              ++ output.norm)).returncode ≠ 0
            ∧ e = (sub (["cdo"] ++ options.norm ++ operator.norm ++ inputs.norm
              ++ output.norm)).stderr)) := by
  intro sub operator inputs output options
  generalize hc : (["cdo"] ++ options.norm ++ operator.norm ++ inputs.norm
      ++ output.norm) = cmd
  have run_eq : run sub operator inputs output options =
      (if (sub cmd).returncode ≠ 0 then Except.error (sub cmd).stderr
       else Except.ok (sub cmd).stdout) := by
    rw [← hc]
    rfl
  rw [run_eq]
  by_cases h : (sub cmd).returncode = 0
  · rw [if_neg (by simp [h])]
    constructor
    · simp [h]
    · intro e
      simp [h]
  · rw [if_pos h]
    constructor
    · simp [h]
    · intro e
      simp only [Except.error.injEq, ne_eq, h, not_false_iff, true_and]
      exact eq_comm

/-- Witness for C9: a zero-exit oracle yields the captured stdout, a
non-zero-exit oracle yields an error carrying the captured stderr. -/
theorem invoker_contract_witness :
    run (fun _ => { returncode := 0, stdout := "data", stderr := "" })
        (StrArg.str "sinfo") (StrArg.str "in.nc") StrArg.noneArg StrArg.noneArg =
      Except.ok "data"
    ∧ run (fun _ => { returncode := 1, stdout := "", stderr := "boom" })
        (StrArg.str "sinfo") (StrArg.str "in.nc") StrArg.noneArg StrArg.noneArg =
      Except.error "boom" := by
  constructor
  · exact (invoker_contract (fun _ => { returncode := 0, stdout := "data", stderr := "" })
      (StrArg.str "sinfo") (StrArg.str "in.nc") StrArg.noneArg StrArg.noneArg).1.mpr rfl
  · exact ((invoker_contract (fun _ => { returncode := 1, stdout := "", stderr := "boom" })
      (StrArg.str "sinfo") (StrArg.str "in.nc") StrArg.noneArg StrArg.noneArg).2 "boom").mpr
      (by simp)

/-- C1: for every synopsis line with a well-formed left half (an operator
token followed by further plain tokens and bracketed groups, comma-joined)
and a non-empty whitespace-joined right half, the parser returns: all items
of the bracketed groups as optional parameters in left-to-right order; the
remaining comma-separated tokens as operator name followed by required
parameters in order; and, for the whitespace-tokenized right half, the last
token as the single output token when there are two or more tokens,
otherwise all tokens as input tokens and zero output tokens.  In
particular, `foo,p1,[flag] in1 in2 out` parses to
requiredParams=["p1"], optionalParams=["flag"], inputs ["in1","in2"],
output ["out"], isTemplate=false. -/
theorem synopsis_line_parse_correct (opName : String) (restSegs : List SynSeg)
    (ios : List String)
    (hop : wfSynTok opName) (hsegs : ∀ s ∈ restSegs, wfSeg s)
    (hios : ios ≠ []) (hiot : ∀ t ∈ ios, wfIoTok t) :
    parseSynopsisBlock [mkSynLine (SynSeg.tok opName :: restSegs) ios] =
      Except.ok
        [{ op := opName,
           required_params := segToks restSegs,
           optional_params := (segGrps (SynSeg.tok opName :: restSegs)).flatten,
           in_tokens := if 2 ≤ ios.length then ios.take (ios.length - 1) else ios,
           out_tokens := if 2 ≤ ios.length then ios.drop (ios.length - 1) else [],
           is_template := isSubstr operatorPlaceholder opName.data }]
    ∧ parseSynopsisBlock ["foo,p1,[flag] in1 in2 out"] =
      Except.ok
        [{ op := "foo", required_params := ["p1"], optional_params := ["flag"],
           in_tokens := ["in1", "in2"], out_tokens := ["out"],
           is_template := false }] := by
  constructor
  · unfold parseSynopsisBlock
    rw [parseSynopsisLine_eval opName restSegs ios hop hsegs hios hiot]
    rfl
  · rfl

/-- Witness for C1: the rendered line for operator `foo`, required `p1`,
optional group `[flag]`, I/O tokens `in1 in2 out` parses to the expected
CallSpec. -/
theorem synopsis_line_parse_correct_witness :
    parseSynopsisBlock
        [mkSynLine [SynSeg.tok "foo", SynSeg.tok "p1", SynSeg.grp ["flag"]]
          ["in1", "in2", "out"]] =
      Except.ok
        [{ op := "foo", required_params := ["p1"], optional_params := ["flag"],
           in_tokens := ["in1", "in2"], out_tokens := ["out"],
           is_template := false }] := by
  have h := synopsis_line_parse_correct "foo" [SynSeg.tok "p1", SynSeg.grp ["flag"]]
    ["in1", "in2", "out"] (by decide) (by decide) (by decide) (by decide)
  exact h.1.trans (by rfl)

/-! ## Infrastructure for the operator-listing claim -/

theorem digitCh_isDigit (n : Nat) (h : n < 10) : isDigitCh (digitCh n) = true := by
  interval_cases n <;> decide

theorem digitCh_toNat (n : Nat) (h : n < 10) : (digitCh n).toNat = 48 + n := by
  interval_cases n <;> decide

theorem natDigitsF_all (fuel : Nat) : ∀ (n : Nat), n ≤ fuel →
    ∀ c ∈ natDigitsF fuel n, isDigitCh c = true := by
  induction fuel with
  | zero =>
    intro n hn c hc
    have h0 : n = 0 := Nat.le_zero.mp hn
    subst h0
    have : c = digitCh 0 := by simpa [natDigitsF] using hc
    subst this
    exact digitCh_isDigit 0 (by omega)
  | succ f ih =>
    intro n hn c hc
    unfold natDigitsF at hc
    by_cases h10 : n < 10
    · rw [if_pos h10] at hc
      have : c = digitCh n := by simpa using hc
      subst this
      exact digitCh_isDigit n h10
    · rw [if_neg h10] at hc
      rcases List.mem_append.mp hc with h1 | h2
      · have hlt : n / 10 < n := Nat.div_lt_self (by omega) (by omega)
        exact ih (n / 10) (by omega) c h1
      · have : c = digitCh (n % 10) := by simpa using h2
        subst this
        exact digitCh_isDigit (n % 10) (Nat.mod_lt _ (by omega))

theorem natDigitsF_ne_nil (fuel n : Nat) : natDigitsF fuel n ≠ [] := by
  cases fuel with
  | zero => simp [natDigitsF]
  | succ f =>
    unfold natDigitsF
    split
    · simp
    · simp

theorem natDigitsF_val (fuel : Nat) : ∀ (n : Nat), n ≤ fuel →
    digitsVal (natDigitsF fuel n) = n := by
  induction fuel with
  | zero =>
    intro n hn
    have h0 : n = 0 := Nat.le_zero.mp hn
    subst h0
    show digitsVal [digitCh 0] = 0
    unfold digitsVal
    simp [digitCh_toNat 0 (by omega)]
  | succ f ih =>
    intro n hn
    unfold natDigitsF
    by_cases h10 : n < 10
    · rw [if_pos h10]
      unfold digitsVal
      simp [digitCh_toNat n h10]
    · rw [if_neg h10]
      have hstep : digitsVal (natDigitsF f (n / 10) ++ [digitCh (n % 10)]) =
          10 * digitsVal (natDigitsF f (n / 10)) + ((digitCh (n % 10)).toNat - 48) := by
        unfold digitsVal
        rw [List.foldl_append]
        simp
      have hlt : n / 10 < n := Nat.div_lt_self (by omega) (by omega)
      rw [hstep, ih (n / 10) (by omega), digitCh_toNat (n % 10) (Nat.mod_lt _ (by omega))]
      omega

theorem natDigits_all (n : Nat) : ∀ c ∈ natDigits n, isDigitCh c = true :=
  natDigitsF_all n n (Nat.le_refl n)

theorem natDigits_ne_nil (n : Nat) : natDigits n ≠ [] :=
  natDigitsF_ne_nil n n

theorem natDigits_val (n : Nat) : digitsVal (natDigits n) = n :=
  natDigitsF_val n n (Nat.le_refl n)

theorem digit_int (c : Char) (h : isDigitCh c = true) : isIntCh c = true := by
  simp [isIntCh, h]

theorem intRender_ne_nil (n : Int) : intRender n ≠ [] := by
  unfold intRender
  split
  · simp
  · exact natDigits_ne_nil _

theorem intRender_all_int (n : Int) : ∀ c ∈ intRender n, isIntCh c = true := by
  unfold intRender
  split <;> intro c hc
  · rcases List.mem_cons.mp hc with rfl | h2
    · decide
    · exact digit_int c (natDigits_all _ c h2)
  · exact digit_int c (natDigits_all _ c hc)

/-- `int()` undoes the canonical rendering of an integer. -/
theorem pyInt_intRender (n : Int) : pyInt (intRender n) = Except.ok n := by
  by_cases h : n < 0
  · have hrw : intRender n = '-' :: natDigits (-n).toNat := by
      unfold intRender
      rw [if_pos h]
    rw [hrw]
    obtain ⟨c, ds, hcons⟩ : ∃ c ds, natDigits (-n).toNat = c :: ds := by
      cases hx : natDigits (-n).toNat with
      | nil => exact absurd hx (natDigits_ne_nil _)
      | cons a b => exact ⟨a, b, rfl⟩
    have hne : (natDigits (-n).toNat).isEmpty = false := by
      rw [hcons]
      rfl
    have hall : (natDigits (-n).toNat).all isDigitCh = true := by
      rw [List.all_eq_true]
      exact natDigits_all _
    simp only [pyInt]
    rw [if_pos trivial, hne, hall]
    rw [if_pos (show (!false && true) = true from rfl)]
    rw [natDigits_val]
    have hv : (((-n).toNat : Nat) : Int) = -n := Int.toNat_of_nonneg (by omega)
    rw [hv]
    simp
  · have hrw : intRender n = natDigits n.toNat := by
      unfold intRender
      rw [if_neg h]
    obtain ⟨c, ds, hcons⟩ : ∃ c ds, natDigits n.toNat = c :: ds := by
      cases hx : natDigits n.toNat with
      | nil => exact absurd hx (natDigits_ne_nil _)
      | cons a b => exact ⟨a, b, rfl⟩
    rw [hrw, hcons]
    have hcd : isDigitCh c = true := natDigits_all n.toNat c (by rw [hcons]; simp)
    have hcne : ¬ (c = '-') := by
      intro he
      rw [he] at hcd
      exact absurd hcd (by decide)
    have hall : (c :: ds).all isDigitCh = true := by
      rw [List.all_eq_true]
      intro x hx
      exact natDigits_all n.toNat x (by rw [hcons]; exact hx)
    simp only [pyInt]
    rw [if_neg hcne, if_pos hall]
    rw [← hcons, natDigits_val]
    rw [Int.toNat_of_nonneg (by omega)]

/-- A trailing whitespace character is removed by `rstrip`. -/
theorem rstripChars_append_ws (xs : List Char) (c : Char) (hc : isWs c = true) :
    rstripChars (xs ++ [c]) = rstripChars xs := by
  unfold rstripChars
  rw [List.reverse_append, List.reverse_singleton, List.singleton_append,
    List.dropWhile_cons, hc]
  simp

/-- If `lstrip` leaves a nonempty list unchanged, its head is non-whitespace. -/
theorem dropLeadWs_id_head (c : Char) (t : List Char) (h : dropLeadWs (c :: t) = c :: t) :
    isWs c = false := by
  cases hw : isWs c with
  | false => rfl
  | true =>
    exfalso
    unfold dropLeadWs at h
    rw [List.dropWhile_cons, hw] at h
    simp only [if_true] at h
    have h1 := dropWhile_length_le isWs t
    have h2 := congrArg List.length h
    simp at h2
    omega

/-- Unfolding equation of the alias scanner on a cons cell. -/
theorem aliasFind_cons (c : Char) (rest : List Char) :
    aliasFind (c :: rest) =
      if (c :: rest).take 3 = ['-', '-', '>'] then
        (let tgt := (dropLeadWs ((c :: rest).drop 3)).takeWhile (fun x => !isWs x)
         if tgt.isEmpty then none else some tgt)
      else aliasFind rest := rfl

/-- `ALIAS_RE.search` fails on a text with no `-` at all. -/
theorem aliasFind_no_dash (l : List Char) (h : '-' ∉ l) : aliasFind l = none := by
  induction l with
  | nil => rfl
  | cons c rest ih =>
    have hc : c ≠ '-' := fun he => h (he ▸ List.mem_cons_self c rest)
    rw [aliasFind_cons]
    rw [if_neg ?hcond]
    · exact ih (fun hm => h (List.mem_cons_of_mem _ hm))
    case hcond =>
      intro he
      apply hc
      have h2 : c :: rest.take 2 = ['-', '-', '>'] := by
        simpa [List.take_succ_cons] using he
      exact (List.cons.injEq _ _ _ _).mp h2 |>.1

/-- `ALIAS_RE.search` on `pre --> X` with a dash-free `pre` and a nonempty
whitespace-free target `X` finds exactly `X`. -/
theorem aliasFind_found (pre X : List Char) (hpre : '-' ∉ pre)
    (hX0 : X ≠ []) (hX : ∀ c ∈ X, isWs c = false) :
    aliasFind (pre ++ '-' :: '-' :: '>' :: ' ' :: X) = some X := by
  induction pre with
  | nil =>
    rw [List.nil_append, aliasFind_cons]
    rw [if_pos (show List.take 3 ('-' :: '-' :: '>' :: ' ' :: X) = ['-', '-', '>'] from rfl)]
    have h1 : (('-' :: '-' :: '>' :: ' ' :: X : List Char)).drop 3 = ' ' :: X := rfl
    dsimp only []
    rw [h1]
    have h2 : dropLeadWs (' ' :: X) = X := by
      unfold dropLeadWs
      rw [List.dropWhile_cons]
      simp only [show isWs ' ' = true from rfl, if_true]
      cases X with
      | nil => exact absurd rfl hX0
      | cons x xt => exact dropWhile_cons_neg _ _ _ (hX x (List.mem_cons_self _ _))
    rw [h2]
    have h3 : X.takeWhile (fun x => !isWs x) = X :=
      takeWhile_all_eq_self _ _ (fun a ha => by rw [hX a ha]; rfl)
    rw [h3]
    have h4 : X.isEmpty = false := by
      cases X with
      | nil => exact absurd rfl hX0
      | cons x xt => rfl
    rw [h4]
    simp
  | cons p ps ih =>
    have hp : p ≠ '-' := fun he => hpre (he ▸ List.mem_cons_self p ps)
    rw [List.cons_append, aliasFind_cons]
    rw [if_neg ?hcond]
    · exact ih (fun hm => hpre (List.mem_cons_of_mem _ hm))
    case hcond =>
      intro he
      apply hp
      have h2 : p :: (ps ++ '-' :: '-' :: '>' :: ' ' :: X).take 2 = ['-', '-', '>'] := by
        simpa [List.take_succ_cons] using he
      exact (List.cons.injEq _ _ _ _).mp h2 |>.1

/-- Unfolding equation of the name stage on a cons cell. -/
theorem lineGroupsName_cons (c : Char) (t r1 r2 : List Char) :
    lineGroupsName (c :: t) r1 r2 =
      if isWs c then none
      else
        some ((c :: t).takeWhile (fun x => !isWs x),
          rstripChars (dropLeadWs ((c :: t).dropWhile (fun x => !isWs x))),
          r1.reverse, r2.reverse) := rfl

/-- Full evaluation of `LINE_RE.match` on a rendered well-formed listing
line: the name group is the (whitespace-free) name, the description group
is the description (empty when absent), and the two arity groups are the
rendered integer fields. -/
theorem lineGroups_eval (N mid dd I1 I2 : List Char)
    (hN0 : N ≠ []) (hN : ∀ c ∈ N, isWs c = false)
    (hmid : (mid = [] ∧ dd = []) ∨
      (mid = ' ' :: dd ∧ dd ≠ [] ∧ dropLeadWs dd = dd ∧ rstripChars dd = dd))
    (hI1 : I1 ≠ []) (hI1c : ∀ c ∈ I1, isIntCh c = true)
    (hI2 : I2 ≠ []) (hI2c : ∀ c ∈ I2, isIntCh c = true) :
    lineGroups (N ++ (mid ++ ' ' :: '(' :: (I1 ++ '|' :: (I2 ++ [')'])))) =
      some (N, dd, I1, I2) := by
  obtain ⟨n0, nt, rfl⟩ : ∃ c t, N = c :: t := by
    cases N with
    | nil => exact absurd rfl hN0
    | cons a b => exact ⟨a, b, rfl⟩
  have hXhead : ∀ t' : List Char, (mid ++ [' ']).takeWhile (fun x => !isWs x) = [] ∧
      (mid ++ [' ']).dropWhile (fun x => !isWs x) = mid ++ [' '] := by
    intro t'
    rcases hmid with ⟨hm, _⟩ | ⟨hm, _, _, _⟩ <;> subst hm
    · exact ⟨takeWhile_cons_neg _ _ _ (by decide), dropWhile_cons_neg _ _ _ (by decide)⟩
    · rw [List.cons_append]
      exact ⟨takeWhile_cons_neg _ _ _ (by decide), dropWhile_cons_neg _ _ _ (by decide)⟩
  have hrev : ((n0 :: nt) ++ (mid ++ ' ' :: '(' :: (I1 ++ '|' :: (I2 ++ [')'])))).reverse =
      ')' :: (I2.reverse ++ '|' :: (I1.reverse ++ '(' :: ' ' ::
        (mid.reverse ++ ((n0 :: nt) : List Char).reverse))) := by
    simp [List.append_assoc]
  unfold lineGroups lineGroupsRev
  rw [hrev]
  simp only [List.head?_cons, List.tail_cons]
  rw [if_pos trivial]
  have e1 : (I2.reverse ++ '|' :: (I1.reverse ++ '(' :: ' ' ::
        (mid.reverse ++ ((n0 :: nt) : List Char).reverse))).takeWhile isIntCh = I2.reverse := by
    rw [takeWhile_all_append _ _ _ (fun c hc => hI2c c (List.mem_reverse.mp hc))]
    rw [takeWhile_cons_neg _ _ _ (by decide)]
    simp
  have e2 : (I2.reverse ++ '|' :: (I1.reverse ++ '(' :: ' ' ::
        (mid.reverse ++ ((n0 :: nt) : List Char).reverse))).dropWhile isIntCh =
      '|' :: (I1.reverse ++ '(' :: ' ' :: (mid.reverse ++ ((n0 :: nt) : List Char).reverse)) := by
    rw [dropWhile_all_append _ _ _ (fun c hc => hI2c c (List.mem_reverse.mp hc))]
    exact dropWhile_cons_neg _ _ _ (by decide)
  have e3 : I2.reverse.isEmpty = false := by
    cases hx : I2.reverse with
    | nil => exact absurd (List.reverse_eq_nil_iff.mp hx) hI2
    | cons a b => rfl
  unfold lineGroupsOut
  dsimp only []
  rw [e1, e2, e3]
  simp only [Bool.false_eq_true, if_false, List.head?_cons, List.tail_cons]
  rw [if_pos trivial]
  have e4 : (I1.reverse ++ '(' :: ' ' ::
        (mid.reverse ++ ((n0 :: nt) : List Char).reverse)).takeWhile isIntCh = I1.reverse := by
    rw [takeWhile_all_append _ _ _ (fun c hc => hI1c c (List.mem_reverse.mp hc))]
    rw [takeWhile_cons_neg _ _ _ (by decide)]
    simp
  have e5 : (I1.reverse ++ '(' :: ' ' ::
        (mid.reverse ++ ((n0 :: nt) : List Char).reverse)).dropWhile isIntCh =
      '(' :: ' ' :: (mid.reverse ++ ((n0 :: nt) : List Char).reverse) := by
    rw [dropWhile_all_append _ _ _ (fun c hc => hI1c c (List.mem_reverse.mp hc))]
    exact dropWhile_cons_neg _ _ _ (by decide)
  have e6 : I1.reverse.isEmpty = false := by
    cases hx : I1.reverse with
    | nil => exact absurd (List.reverse_eq_nil_iff.mp hx) hI1
    | cons a b => rfl
  unfold lineGroupsIn
  dsimp only []
  rw [e4, e5, e6]
  simp only [Bool.false_eq_true, if_false, List.head?_cons, List.tail_cons]
  rw [if_pos trivial]
  have e7 : (' ' :: (mid.reverse ++ ((n0 :: nt) : List Char).reverse)).reverse =
      n0 :: (nt ++ (mid ++ [' '])) := by
    simp [List.append_assoc]
  rw [e7, lineGroupsName_cons]
  have hn0 : isWs n0 = false := hN n0 (List.mem_cons_self _ _)
  rw [if_neg (by simp [hn0])]
  have e9 : (n0 :: (nt ++ (mid ++ [' ']))).takeWhile (fun x => !isWs x) = n0 :: nt := by
    rw [show (n0 :: (nt ++ (mid ++ [' '])) : List Char) = (n0 :: nt) ++ (mid ++ [' '])
      from by simp]
    rw [takeWhile_all_append _ _ _ (fun a ha => by rw [hN a ha]; rfl)]
    rw [(hXhead []).1]
    simp
  have e10 : (n0 :: (nt ++ (mid ++ [' ']))).dropWhile (fun x => !isWs x) = mid ++ [' '] := by
    rw [show (n0 :: (nt ++ (mid ++ [' '])) : List Char) = (n0 :: nt) ++ (mid ++ [' '])
      from by simp]
    rw [dropWhile_all_append _ _ _ (fun a ha => by rw [hN a ha]; rfl)]
    exact (hXhead []).2
  have e11 : rstripChars (dropLeadWs (mid ++ [' '])) = dd := by
    rcases hmid with ⟨hm, hd⟩ | ⟨hm, hd0, hddl, hddr⟩
    · subst hm
      subst hd
      rfl
    · subst hm
      obtain ⟨d0, dt, hdd⟩ : ∃ c t, dd = c :: t := by
        cases dd with
        | nil => exact absurd rfl hd0
        | cons a b => exact ⟨a, b, rfl⟩
      have hd0ws : isWs d0 = false := by
        rw [hdd] at hddl
        exact dropLeadWs_id_head _ _ hddl
      have s1 : dropLeadWs ((' ' :: dd) ++ [' ']) = dd ++ [' '] := by
        unfold dropLeadWs
        rw [List.cons_append, List.dropWhile_cons]
        simp only [show isWs ' ' = true from rfl, if_true]
        rw [hdd, List.cons_append]
        exact dropWhile_cons_neg _ _ _ hd0ws
      rw [s1, rstripChars_append_ws _ _ (show isWs ' ' = true from rfl), hddr]
  rw [e9, e10, e11]
  simp [List.reverse_reverse]

/-- Trailing whitespace after a right-stripped prefix is removed whole. -/
theorem rstripChars_append_all_ws (W T : List Char) (hT : ∀ c ∈ T, isWs c = true)
    (hW : rstripChars W = W) : rstripChars (W ++ T) = W := by
  unfold rstripChars at hW ⊢
  rw [List.reverse_append, dropWhile_all_append _ _ _
    (fun c hc => hT c (List.mem_reverse.mp hc))]
  exact hW

/-- The rendered listing line right-strips to itself. -/
theorem mkListingLine_rstrip (N mid : List Char) (nIn nOut : Int) :
    rstripChars (N ++ (mid ++ ' ' :: '(' :: (intRender nIn ++ '|' :: (intRender nOut ++ [')'])))) =
      N ++ (mid ++ ' ' :: '(' :: (intRender nIn ++ '|' :: (intRender nOut ++ [')']))) := by
  have h2 := rstripChars_keep (N ++ (mid ++ ' ' :: '(' :: (intRender nIn ++ '|' :: intRender nOut)))
    [')'] (by simp) (by rfl)
  rw [show N ++ (mid ++ ' ' :: '(' :: (intRender nIn ++ '|' :: (intRender nOut ++ [')']))) =
    (N ++ (mid ++ ' ' :: '(' :: (intRender nIn ++ '|' :: intRender nOut))) ++ [')']
    from by simp]
  exact h2

/-- Evaluation of the loop body on a rendered line with no description. -/
theorem parseListingLine_none (name : String) (nIn nOut : Int) (trail : String)
    (hname : wfListName name) (htrail : ∀ c ∈ trail.data, isWs c = true) :
    parseListingLine (String.mk ((mkListingLine name none nIn nOut).data ++ trail.data)) =
      Except.ok (some { name := name, description := none, inputs := nIn,
                        outputs := nOut, is_alias := false, alias_to := none }) := by
  obtain ⟨n0, nt, hnd⟩ : ∃ c t, name.data = c :: t := by
    cases hx : name.data with
    | nil => exact absurd hx (string_data_ne_nil name hname.1)
    | cons a b => exact ⟨a, b, rfl⟩
  have hW : (mkListingLine name none nIn nOut).data =
      name.data ++ (([] : List Char) ++ ' ' :: '(' :: (intRender nIn ++ '|' ::
        (intRender nOut ++ [')']))) := by
    simp [mkListingLine]
  have hline : rstripChars (String.mk ((mkListingLine name none nIn nOut).data
        ++ trail.data)).data =
      name.data ++ (([] : List Char) ++ ' ' :: '(' :: (intRender nIn ++ '|' ::
        (intRender nOut ++ [')']))) := by
    show rstripChars ((mkListingLine name none nIn nOut).data ++ trail.data) = _
    rw [hW, rstripChars_append_all_ws _ _ htrail (mkListingLine_rstrip _ _ _ _)]
  have hempty : (name.data ++ (([] : List Char) ++ ' ' :: '(' :: (intRender nIn ++ '|' ::
      (intRender nOut ++ [')'])))).isEmpty = false := by
    rw [hnd]
    rfl
  have hlg := lineGroups_eval name.data [] [] (intRender nIn) (intRender nOut)
    (string_data_ne_nil name hname.1) hname.2 (Or.inl ⟨rfl, rfl⟩)
    (intRender_ne_nil _) (intRender_all_int _) (intRender_ne_nil _) (intRender_all_int _)
  unfold parseListingLine
  simp only [hline, hempty, Bool.false_eq_true, if_false, hlg, pyInt_intRender]
  simp [string_mk_data, show aliasFind ([] : List Char) = none from rfl]

/-- Evaluation of the loop body on a rendered line with a description. -/
theorem parseListingLine_some (name d : String) (nIn nOut : Int) (trail : String)
    (hname : wfListName name) (hd : wfListDesc d)
    (htrail : ∀ c ∈ trail.data, isWs c = true) :
    parseListingLine (String.mk ((mkListingLine name (some d) nIn nOut).data ++ trail.data)) =
      Except.ok (some { name := name, description := some d, inputs := nIn,
                        outputs := nOut, is_alias := (aliasFind d.data).isSome,
                        alias_to := (aliasFind d.data).map String.mk }) := by
  obtain ⟨hd0, hd1, hd2⟩ := hd
  obtain ⟨d0, dt, hdd⟩ : ∃ c t, d.data = c :: t := by
    cases hx : d.data with
    | nil => exact absurd hx (string_data_ne_nil d hd0)
    | cons a b => exact ⟨a, b, rfl⟩
  have hW : (mkListingLine name (some d) nIn nOut).data =
      name.data ++ ((' ' :: d.data) ++ ' ' :: '(' :: (intRender nIn ++ '|' ::
        (intRender nOut ++ [')']))) := by
    simp [mkListingLine]
  have hline : rstripChars (String.mk ((mkListingLine name (some d) nIn nOut).data
        ++ trail.data)).data =
      name.data ++ ((' ' :: d.data) ++ ' ' :: '(' :: (intRender nIn ++ '|' ::
        (intRender nOut ++ [')']))) := by
    show rstripChars ((mkListingLine name (some d) nIn nOut).data ++ trail.data) = _
    rw [hW, rstripChars_append_all_ws _ _ htrail (mkListingLine_rstrip _ _ _ _)]
  have hempty : (name.data ++ ((' ' :: d.data) ++ ' ' :: '(' :: (intRender nIn ++ '|' ::
      (intRender nOut ++ [')'])))).isEmpty = false := by
    obtain ⟨c, t, hx⟩ : ∃ c t, name.data = c :: t := by
      cases hy : name.data with
      | nil => exact absurd hy (string_data_ne_nil name hname.1)
      | cons a b => exact ⟨a, b, rfl⟩
    rw [hx]
    rfl
  have hlg := lineGroups_eval name.data (' ' :: d.data) d.data (intRender nIn)
    (intRender nOut) (string_data_ne_nil name hname.1) hname.2
    (Or.inr ⟨rfl, string_data_ne_nil d hd0, hd1, hd2⟩)
    (intRender_ne_nil _) (intRender_all_int _) (intRender_ne_nil _) (intRender_all_int _)
  have hde : d.data.isEmpty = false := by
    rw [hdd]
    rfl
  unfold parseListingLine
  simp only [hline, hempty, Bool.false_eq_true, if_false, hlg, pyInt_intRender, hde]

/-- A line with no `)` at all cannot match `LINE_RE`, so it is skipped. -/
theorem parseListingLine_skip (l : String) (h : ')' ∉ l.data) :
    parseListingLine l = Except.ok none := by
  unfold parseListingLine
  by_cases he : (rstripChars l.data).isEmpty
  · rw [if_pos he]
  · rw [if_neg he]
    have hlg : lineGroups (rstripChars l.data) = none := by
      unfold lineGroups lineGroupsRev
      rw [if_neg ?hc]
      case hc =>
        intro hc
        have h1 : ')' ∈ (rstripChars l.data).reverse := by
          cases hx : (rstripChars l.data).reverse with
          | nil =>
            rw [hx] at hc
            exact Option.noConfusion hc
          | cons a b =>
            rw [hx] at hc
            simp only [List.head?_cons, Option.some.injEq] at hc
            rw [hc]
            exact List.mem_cons_self _ _
        have h2 : ')' ∈ rstripChars l.data := List.mem_reverse.mp h1
        apply h
        unfold rstripChars at h2
        have h3 : ')' ∈ l.data.reverse.dropWhile isWs := List.mem_reverse.mp h2
        have h4 : ')' ∈ l.data.reverse := (List.dropWhile_sublist _).subset h3
        exact List.mem_reverse.mp h4
    rw [hlg]

/-- A line whose body parses to a row yields that single row. -/
theorem parse_single (l : String) (r : OperatorRow)
    (h : parseListingLine l = Except.ok (some r)) :
    parse_cdo_operator_listing [l] = Except.ok [r] := by
  unfold parse_cdo_operator_listing listingRows
  rw [h]
  rfl

/-- A skipped line yields no row. -/
theorem parse_single_skip (l : String) (h : parseListingLine l = Except.ok none) :
    parse_cdo_operator_listing [l] = Except.ok [] := by
  unfold parse_cdo_operator_listing listingRows
  rw [h]
  rfl

/-- A rendered alias description is a well-formed listing description. -/
theorem mkAliasDesc_wf (pre X : String)
    (hpre : '-' ∉ pre.data ∧ dropLeadWs pre.data = pre.data)
    (hX : wfListName X) : wfListDesc (mkAliasDesc pre X) := by
  obtain ⟨hp1, hp2⟩ := hpre
  have hdata : (mkAliasDesc pre X).data = pre.data ++ '-' :: '-' :: '>' :: ' ' :: X.data := rfl
  refine ⟨?_, ?_, ?_⟩
  · intro he
    have h2 := congrArg String.data he
    rw [hdata] at h2
    simp at h2
  · rw [hdata]
    cases hx : pre.data with
    | nil =>
      simp only [List.nil_append]
      unfold dropLeadWs
      exact dropWhile_cons_neg _ _ _ (by decide)
    | cons c t =>
      rw [hx] at hp2
      have hc : isWs c = false := dropLeadWs_id_head c t hp2
      rw [List.cons_append]
      unfold dropLeadWs
      exact dropWhile_cons_neg _ _ _ hc
  · rw [hdata]
    obtain ⟨xs, xlast, hsplit⟩ : ∃ ys c, X.data = ys ++ [c] := by
      rcases List.eq_nil_or_concat X.data with h0 | ⟨L, b, hlb⟩
      · exact absurd h0 (string_data_ne_nil X hX.1)
      · exact ⟨L, b, by rw [hlb]; exact List.concat_eq_append _ _⟩
    have hlast : isWs xlast = false := hX.2 xlast (by rw [hsplit]; simp)
    rw [show pre.data ++ '-' :: '-' :: '>' :: ' ' :: X.data =
      (pre.data ++ '-' :: '-' :: '>' :: ' ' :: xs) ++ [xlast] from by rw [hsplit]; simp]
    exact rstripChars_keep _ [xlast] (by simp)
      (rstripChars_of_all_nonws _ (fun c hc => by
        simp only [List.mem_singleton] at hc
        rw [hc]
        exact hlast))

/-- C5 (amended): for every listing line rendered from the grammar
`NAME [DESC] (IN|OUT)` — IN and OUT integers, possibly negative, trailing
whitespace ignored — the builder recovers (name, inputs, outputs) exactly,
with the integer values carried through unchanged; a description of the
shape `pre--> X` (dash-free `pre`) yields is_alias = true and
alias_to = X; a line containing no `)` (hence not matching the grammar)
is skipped silently with no record and no error; but a line matching the
surface pattern whose arity field is not a valid integer literal (here
`-` alone) raises a ValueError from `int()` instead of being skipped. -/
theorem listing_parse_correct (name : String) (desc : Option String) (nIn nOut : Int)
    (pre X trail skipLine : String)
    (hname : wfListName name)
    (hdesc : desc = none ∨ ∃ d, desc = some d ∧ wfListDesc d ∧ '-' ∉ d.data)
    (hpre : '-' ∉ pre.data ∧ dropLeadWs pre.data = pre.data)
    (hX : wfListName X)
    (htrail : ∀ c ∈ trail.data, isWs c = true)
    (hskip : ')' ∉ skipLine.data) :
    parse_cdo_operator_listing
        [String.mk ((mkListingLine name desc nIn nOut).data ++ trail.data)] =
      Except.ok [{ name := name, description := desc, inputs := nIn,
                   outputs := nOut, is_alias := false, alias_to := none }]
    ∧ parse_cdo_operator_listing
        [String.mk ((mkListingLine name (some (mkAliasDesc pre X)) nIn nOut).data
          ++ trail.data)] =
      Except.ok [{ name := name, description := some (mkAliasDesc pre X), inputs := nIn,
                   outputs := nOut, is_alias := true, alias_to := some X }]
    ∧ parse_cdo_operator_listing [skipLine] = Except.ok []
    ∧ parse_cdo_operator_listing ["qux (5|-)"] =
        Except.error "ValueError: invalid literal for int" := by
  refine ⟨?_, ?_, ?_, ?_⟩
  · rcases hdesc with rfl | ⟨d, rfl, hwf, hnd⟩
    · exact parse_single _ _ (parseListingLine_none name nIn nOut trail hname htrail)
    · have h := parseListingLine_some name d nIn nOut trail hname hwf htrail
      rw [aliasFind_no_dash d.data hnd] at h
      exact parse_single _ _ h
  · have hwfa : wfListDesc (mkAliasDesc pre X) := mkAliasDesc_wf pre X hpre hX
    have h := parseListingLine_some name (mkAliasDesc pre X) nIn nOut trail hname hwfa htrail
    rw [show aliasFind (mkAliasDesc pre X).data = some X.data from
      aliasFind_found pre.data X.data hpre.1 (string_data_ne_nil X hX.1) hX.2] at h
    simp only [Option.isSome_some, Option.map_some', string_mk_data] at h
    exact parse_single _ _ h
  · exact parse_single_skip _ (parseListingLine_skip _ hskip)
  · rfl

/-- Witness for C5: `tavg time average (-1|1) ` (trailing space) parses to
the expected row; `tavg alias of --> timavg (-1|1) ` yields the alias row
with target `timavg`; `Operators:` is skipped; and `qux (5|-)` raises a
ValueError. -/
theorem listing_parse_correct_witness :
    parse_cdo_operator_listing
        [String.mk ((mkListingLine "tavg" (some "time average") (-1) 1).data ++ " ".data)] =
      Except.ok [{ name := "tavg", description := some "time average", inputs := -1,
                   outputs := 1, is_alias := false, alias_to := none }]
    ∧ parse_cdo_operator_listing
        [String.mk ((mkListingLine "tavg" (some (mkAliasDesc "alias of " "timavg")) (-1) 1).data
          ++ " ".data)] =
      Except.ok [{ name := "tavg", description := some (mkAliasDesc "alias of " "timavg"),
                   inputs := -1, outputs := 1, is_alias := true, alias_to := some "timavg" }]
    ∧ parse_cdo_operator_listing ["Operators:"] = Except.ok []
    ∧ parse_cdo_operator_listing ["qux (5|-)"] =
        Except.error "ValueError: invalid literal for int" :=
  listing_parse_correct "tavg" (some "time average") (-1) 1 "alias of " "timavg" " " "Operators:"
    (by decide) (Or.inr ⟨"time average", rfl, by decide, by decide⟩)
    (by decide) (by decide) (by decide) (by decide)

/-- C5 counterexample to the original wording: the line `foo (-|1)` does not
match the claimed grammar (its IN field `-` is not an integer), yet it is
not skipped silently — `[-\d]+` accepts the bare `-`, and `int('-')` then
raises an uncaught ValueError. -/
theorem listing_invalid_arity_raises :
    parse_cdo_operator_listing ["foo (-|1)"] =
      Except.error "ValueError: invalid literal for int" := rfl

end PyCdo
